import Mathlib

/-!
# Verification of the SplitWise backend balance / settlement core

This development gives a shallow embedding in Lean 4 of the balance and
settlement computations of the SplitWise backend repository, together with
theorems about them.

The repository contains two independent implementations of the core:

* the analytics router (`calculateBalances` and `calculateSettlements`,
  here in namespace `Analytics`): balances seed every group member at 0 and
  every update is guarded by `hasOwnProperty`, so the key set never grows;
  settlements are produced by a nested pair loop over the key list;
* the monolithic server (`calculateGroupAnalytics` and
  `calculateSettlements`, here in namespace `Server`): balance updates use
  `balances[k] = (balances[k] || 0) ± v`, which creates missing keys;
  settlements are produced by a greedy two-pointer walk over the debtor and
  creditor lists.

JavaScript objects are modelled as association lists `List (String × ℚ)`
in insertion order; JS numbers are modelled as rationals (the spec reads
the arithmetic over exact rationals).  Reading a missing property and
applying `|| 0` yields 0, which is the default of `lookupQ`.
-/

/-- The tolerance constant 0.01 used at every balance/zero comparison. -/
def eps : ℚ := 1 / 100

/-- Key list of a JS object modelled as an association list. -/
def keys (l : List (String × ℚ)) : List String := l.map Prod.fst

/-- Property read with the `|| 0` / missing-property-gives-0 convention:
first entry with the given key, defaulting to 0. -/
def lookupQ : List (String × ℚ) → String → ℚ
  | [], _ => 0
  | p :: l, m => if p.1 = m then p.2 else lookupQ l m

/-- Sum of all values of the object (used for the zero-sum invariant). -/
def sumValues (l : List (String × ℚ)) : ℚ := (l.map Prod.snd).sum

/-- A settlement record `{from, to, amount}`.  `from` is a Lean keyword, so
the fields are named `fromMember` and `toMember`. -/
structure Settlement where
  fromMember : String
  toMember : String
  amount : ℚ
deriving DecidableEq, Repr

/-- The fields of an expense document that the balance computations read
(`amount`, `paidBy`, `splitAmong`, `splitMethod`, `customAmounts`).
`customAmounts` is `none` for the JS `null`/absent Map. -/
structure Expense where
  amount : ℚ
  paidBy : String
  splitAmong : List String
  splitMethod : String
  customAmounts : Option (List (String × ℚ))
deriving DecidableEq, Repr

namespace Analytics

/-- Guarded decrement `balances[m] -= v` under `hasOwnProperty(m)`: entries with key `m`
are decremented, an absent key is left absent (no-op). -/
def subIfPresent (bal : List (String × ℚ)) (m : String) (v : ℚ) : List (String × ℚ) :=
  bal.map (fun p => if p.1 = m then (p.1, p.2 - v) else p)

/-- Guarded increment `balances[m] += v` under `hasOwnProperty(m)`. -/
def addIfPresent (bal : List (String × ℚ)) (m : String) (v : ℚ) : List (String × ℚ) :=
  bal.map (fun p => if p.1 = m then (p.1, p.2 + v) else p)

/-- The body of the `expenses.forEach` loop of the analytics router's
`calculateBalances`: custom split subtracts each `customAmounts` entry from
seeded members, otherwise each `splitAmong` occurrence is charged
`amount / splitAmong.length`; finally the payer (if seeded) receives the
full amount. -/
def applyExpense (bal : List (String × ℚ)) (e : Expense) : List (String × ℚ) :=
  let bal1 :=
    if e.splitMethod = "custom" ∧ e.customAmounts.isSome then
      (e.customAmounts.getD []).foldl (fun b q => subIfPresent b q.1 q.2) bal
    else
      let share := e.amount / (e.splitAmong.length : ℚ)
      e.splitAmong.foldl (fun b m => subIfPresent b m share) bal
  addIfPresent bal1 e.paidBy e.amount

/-- The function `calculateBalances(expenses, members)` of the analytics router:
seed every member at 0, then process the expenses in order. -/
def calculateBalances (expenses : List Expense) (members : List String) :
    List (String × ℚ) :=
  expenses.foldl applyExpense (members.map (fun m => (m, 0)))

/-- One `(i, j)` iteration of the nested loop of the analytics router's
`calculateSettlements`: when `balanceCopy[m1] > 0.01` and
`balanceCopy[m2] < -0.01`, member `m2` pays member `m1` the minimum of the
two magnitudes, and the copy is updated. -/
def pairStep (st : (String → ℚ) × List Settlement) (m1 m2 : String) :
    (String → ℚ) × List Settlement :=
  let b1 := st.1 m1
  let b2 := st.1 m2
  if eps < b1 ∧ b2 < -eps then
    let a := min b1 (-b2)
    (Function.update (Function.update st.1 m1 (b1 - a)) m2 (b2 + a),
     st.2 ++ [⟨m2, m1, a⟩])
  else st

/-- Inner `j` loop: pair the fixed `m1` with every later member. -/
def innerLoop (m1 : String) : List String → (String → ℚ) × List Settlement →
    (String → ℚ) × List Settlement
  | [], st => st
  | m2 :: rest, st => innerLoop m1 rest (pairStep st m1 m2)

/-- Outer `i` loop over the member list. -/
def outerLoop : List String → (String → ℚ) × List Settlement →
    (String → ℚ) × List Settlement
  | [], st => st
  | m1 :: rest, st => outerLoop rest (innerLoop m1 rest st)

/-- The function `calculateSettlements(balances)` of the analytics router: run the nested
pair loop over `Object.keys(balances)` on a spread copy of the balances. -/
def calculateSettlements (balances : List (String × ℚ)) : List Settlement :=
  (outerLoop (keys balances) (fun m => lookupQ balances m, [])).2

/-- The analytics `calculateSettlements` together with the post-call contents of the
object passed in: the source copies the balances (`{...balances}`) and mutates only
the copy, so the caller's object is returned unchanged. -/
def calculateSettlementsFull (balances : List (String × ℚ)) :
    List Settlement × List (String × ℚ) :=
  (calculateSettlements balances, balances)

end Analytics

namespace Server

/-- Assignment `balances[m] = v` with JS object semantics: overwrite an existing key,
append a fresh key at the end otherwise. -/
def jsSet (bal : List (String × ℚ)) (m : String) (v : ℚ) : List (String × ℚ) :=
  if m ∈ keys bal then bal.map (fun p => if p.1 = m then (p.1, v) else p)
  else bal ++ [(m, v)]

/-- Lookup `customAmounts.get(member) || 0` (resp. `customAmounts[member] || 0`). -/
def caGet (ca : Option (List (String × ℚ))) (m : String) : ℚ :=
  lookupQ (ca.getD []) m

/-- The body of the `expenses.forEach` loop of `calculateGroupAnalytics`:
first `balances[paidBy] = (balances[paidBy] || 0) + amount`, then for a
custom split each `splitAmong` member is charged its `customAmounts` share
(defaulting to 0), otherwise each `splitAmong` member is charged the equal
share.  Every write may create a missing key. -/
def applyExpense (bal : List (String × ℚ)) (e : Expense) : List (String × ℚ) :=
  let bal1 := jsSet bal e.paidBy (lookupQ bal e.paidBy + e.amount)
  if e.splitMethod = "custom" ∧ e.customAmounts.isSome then
    e.splitAmong.foldl (fun b m => jsSet b m (lookupQ b m - caGet e.customAmounts m)) bal1
  else
    let share := e.amount / (e.splitAmong.length : ℚ)
    e.splitAmong.foldl (fun b m => jsSet b m (lookupQ b m - share)) bal1

/-- The balance map built inside `calculateGroupAnalytics(expenses, members)`
of the monolithic server. -/
def calculateGroupAnalyticsBalances (expenses : List Expense)
    (members : List String) : List (String × ℚ) :=
  expenses.foldl applyExpense (members.map (fun m => (m, 0)))

/-- A debtor or creditor entry `{person, amount}`. -/
structure Party where
  person : String
  amount : ℚ
deriving DecidableEq, Repr

/-- The debtor list: members with balance below `-0.01`, carrying the owed
magnitude, in object iteration order. -/
def debtors (balances : List (String × ℚ)) : List Party :=
  (balances.filter (fun p => p.2 < -eps)).map (fun p => ⟨p.1, -p.2⟩)

/-- The creditor list: members with balance above `0.01`. -/
def creditors (balances : List (String × ℚ)) : List Party :=
  (balances.filter (fun p => eps < p.2)).map (fun p => ⟨p.1, p.2⟩)

/-- The `while (i < debtors.length && j < creditors.length)` loop of the
server's `calculateSettlements`: transfer the minimum of the two current
amounts, then advance each cursor whose remaining amount dropped below
0.01.  The cursor-advance is modelled by popping the head; a head that
stays keeps its reduced amount.  The branch on `d.amount ≤ c.amount`
matches `Math.min`: the smaller side always drops to 0 and is popped. -/
def settleLoop : List Party → List Party → List Settlement
  | [], _ => []
  | _ :: _, [] => []
  | d :: ds, c :: cs =>
    if d.amount ≤ c.amount then
      ⟨d.person, c.person, d.amount⟩ ::
        (if c.amount - d.amount < eps then settleLoop ds cs
         else settleLoop ds (⟨c.person, c.amount - d.amount⟩ :: cs))
    else
      ⟨d.person, c.person, c.amount⟩ ::
        (if d.amount - c.amount < eps then settleLoop ds cs
         else settleLoop (⟨d.person, d.amount - c.amount⟩ :: ds) cs)
termination_by ds cs => ds.length + cs.length
decreasing_by all_goals simp_arith

/-- The function `calculateSettlements(balances)` of the monolithic server. -/
def calculateSettlements (balances : List (String × ℚ)) : List Settlement :=
  settleLoop (debtors balances) (creditors balances)

/-- The server `calculateSettlements` together with the post-call contents of the
object passed in: the source only reads `balances` (via `Object.entries`) and
mutates the fresh `debtors`/`creditors` arrays, so the caller's object is
returned unchanged. -/
def calculateSettlementsFull (balances : List (String × ℚ)) :
    List Settlement × List (String × ℚ) :=
  (settleLoop (debtors balances) (creditors balances), balances)

end Server

namespace ExpensesRoute

/-- The request body fields read by `POST /api/expenses`; `none` models an
absent (`undefined`) field. -/
structure PostReq where
  groupId : Option String
  title : Option String
  amount : Option ℚ
  paidBy : Option String
  date : Option String
  splitAmong : Option (List String)
  splitMethod : Option String
  customAmounts : Option (List (String × ℚ))

/-- JS truthiness of a string field: absent and the empty string are falsy. -/
def truthyS : Option String → Bool
  | none => false
  | some s => s ≠ ""

/-- JS truthiness of a number field: absent and 0 are falsy. -/
def truthyQ : Option ℚ → Bool
  | none => false
  | some q => q ≠ 0

/-- JS truthiness of an array field: any array, including `[]`, is truthy. -/
def truthyL : Option (List String) → Bool
  | none => false
  | some _ => true

/-- JS truthiness of an object/Map field: any object, even empty, is truthy. -/
def truthyM : Option (List (String × ℚ)) → Bool
  | none => false
  | some _ => true

/-- The required-fields check
`if (!groupId || !title || !amount || !paidBy || !date || !splitAmong)`. -/
def requiredPresent (req : PostReq) : Bool :=
  truthyS req.groupId && truthyS req.title && truthyQ req.amount &&
    truthyS req.paidBy && truthyS req.date && truthyL req.splitAmong

/-- Defaulting `splitMethod || 'equal'`: an absent or empty-string method defaults. -/
def methodOrEqual : Option String → String
  | none => "equal"
  | some s => if s = "" then "equal" else s

/-- Sum of the `customAmounts` values
(`Object.values(customAmounts).reduce((sum, amt) => sum + amt, 0)`). -/
def caTotal (ca : List (String × ℚ)) : ℚ := (ca.map Prod.snd).sum

/-- The expense document the route stores
(restricted to the fields the balance computations read). -/
def mkExpense (req : PostReq) : Expense :=
  { amount := req.amount.getD 0
    paidBy := req.paidBy.getD ""
    splitAmong := req.splitAmong.getD []
    splitMethod := methodOrEqual req.splitMethod
    customAmounts :=
      if req.splitMethod = some "custom" then req.customAmounts else none }

/-- Outcome of the validation part of the handler: a 400 response with the
given error message, or the stored expense (201). -/
inductive PostOutcome where
  | badRequest : String → PostOutcome
  | created : Expense → PostOutcome
deriving DecidableEq, Repr

/-- The pure validation/creation pipeline of `POST /api/expenses`
(the group-existence lookup, which queries the database, is assumed to
succeed).  Order as in the source: required-fields check, then the custom
split checks, then creation. -/
def postExpense (req : PostReq) : PostOutcome :=
  if ¬ requiredPresent req then
    .badRequest "Please provide all required fields"
  else if req.splitMethod = some "custom" then
    match req.customAmounts with
    | none => .badRequest "Custom amounts required for custom split method"
    | some ca =>
      if |caTotal ca - req.amount.getD 0| ≥ eps then
        .badRequest "Custom amounts must sum to total amount"
      else .created (mkExpense req)
  else .created (mkExpense req)

end ExpensesRoute

/-- Total amount paid out by member `m` across a settlement list. -/
def outFlow (s : List Settlement) (m : String) : ℚ :=
  ((s.filter (fun t => t.fromMember = m)).map Settlement.amount).sum

/-- Total amount received by member `m` across a settlement list. -/
def inFlow (s : List Settlement) (m : String) : ℚ :=
  ((s.filter (fun t => t.toMember = m)).map Settlement.amount).sum

/-- Apply one settlement as a payment: the `from` member's balance rises by
`amount` (their debt shrinks) and the `to` member's falls by `amount`. -/
def payStep (bal : List (String × ℚ)) (t : Settlement) : List (String × ℚ) :=
  Analytics.subIfPresent (Analytics.addIfPresent bal t.fromMember t.amount)
    t.toMember t.amount

/-- Apply a settlement list, in order, as payments. -/
def applyPayments (bal : List (String × ℚ)) (s : List Settlement) :
    List (String × ℚ) :=
  s.foldl payStep bal

/-- Apply one settlement literally as claim C1 words it: subtract `amount`
from the `from` member and add it to the `to` member. -/
def literalStep (bal : List (String × ℚ)) (t : Settlement) : List (String × ℚ) :=
  Analytics.addIfPresent (Analytics.subIfPresent bal t.fromMember t.amount)
    t.toMember t.amount

/-- Apply a settlement list, in order, with the claim's literal orientation. -/
def applyLiteral (bal : List (String × ℚ)) (s : List Settlement) :
    List (String × ℚ) :=
  s.foldl literalStep bal

/-- A rational is a whole number of cents. -/
def isCent (q : ℚ) : Prop := ∃ k : ℤ, q = k / 100

/-- Sum of the amounts of the entries of a party list owned by `m`. -/
def partyAmt (l : List Server.Party) (m : String) : ℚ :=
  ((l.filter (fun p => p.person = m)).map Server.Party.amount).sum

/-- Sum of the `customAmounts` shares recorded for member `m`. -/
def caSum (ca : List (String × ℚ)) (m : String) : ℚ :=
  ((ca.filter (fun p => p.1 = m)).map Prod.snd).sum

/-- Total of the amounts of the expenses paid by `p`. -/
def paidSum (expenses : List Expense) (p : String) : ℚ :=
  ((expenses.filter (fun e => e.paidBy = p)).map Expense.amount).sum

example : Analytics.calculateBalances
    [⟨90, "A", ["A", "B", "C"], "equal", none⟩] ["A", "B", "C"]
    = [("A", 60), ("B", -30), ("C", -30)] := by
  simp [Analytics.calculateBalances, Analytics.applyExpense,
    Analytics.subIfPresent, Analytics.addIfPresent]
  norm_num

example : Server.calculateSettlements [("A", 60), ("B", -30), ("C", -30)]
    = [⟨"B", "A", 30⟩, ⟨"C", "A", 30⟩] := by
  repeat first
    | (simp [Server.calculateSettlements, Server.debtors, Server.creditors,
        Server.settleLoop, eps, min_def])
    | norm_num

example : Analytics.calculateSettlements [("A", 60), ("B", -30), ("C", -30)]
    = [⟨"B", "A", 30⟩, ⟨"C", "A", 30⟩] := by
  repeat first
    | (simp [Analytics.calculateSettlements, Analytics.outerLoop,
        Analytics.innerLoop, Analytics.pairStep, keys, lookupQ, eps,
        Function.update, min_def])
    | norm_num

example : Analytics.calculateSettlements [("a", -30), ("b", 60), ("c", -30)]
    = [⟨"c", "b", 30⟩] := by
  repeat first
    | (simp [Analytics.calculateSettlements, Analytics.outerLoop,
        Analytics.innerLoop, Analytics.pairStep, keys, lookupQ, eps,
        Function.update, min_def])
    | norm_num

/-! ## Association-list lemmas -/

lemma lookupQ_eq_zero_of_not_mem {l : List (String × ℚ)} {m : String}
    (h : m ∉ keys l) : lookupQ l m = 0 := by
  induction l with
  | nil => rfl
  | cons p l ih =>
    have h1 : p.1 ≠ m := by
      intro hq
      exact h (by simp [keys, hq])
    have h2 : m ∉ keys l := by
      intro hq
      exact h (by simp [keys] at hq ⊢; exact Or.inr hq)
    simp only [lookupQ, if_neg h1]
    exact ih h2

lemma mem_keys_of_lookupQ_ne {l : List (String × ℚ)} {m : String}
    (h : lookupQ l m ≠ 0) : m ∈ keys l := by
  by_contra hm
  exact h (lookupQ_eq_zero_of_not_mem hm)

lemma lookupQ_entry {l : List (String × ℚ)} {m : String} {v : ℚ}
    (hnd : (keys l).Nodup) (h : (m, v) ∈ l) : lookupQ l m = v := by
  induction l with
  | nil => simp at h
  | cons p l ih =>
    simp only [keys, List.map_cons, List.nodup_cons] at hnd
    rcases List.mem_cons.mp h with h | h
    · simp [lookupQ, h.symm]
    · have hp : p.1 ≠ m := by
        intro hpm
        exact hnd.1 (hpm ▸ (List.mem_map.mpr ⟨(m, v), h, rfl⟩))
      simp only [lookupQ, if_neg hp]
      exact ih hnd.2 h

lemma entry_mem_of_lookupQ {l : List (String × ℚ)} {m : String}
    (h : m ∈ keys l) : (m, lookupQ l m) ∈ l := by
  induction l with
  | nil => simp [keys] at h
  | cons p l ih =>
    by_cases hp : p.1 = m
    · subst hp
      simp [lookupQ]
    · simp only [keys, List.map_cons, List.mem_cons] at h
      rcases h with h | h
      · exact absurd h.symm hp
      · simp only [lookupQ, if_neg hp]
        exact List.mem_cons_of_mem _ (ih h)

lemma lookupQ_append (l₁ l₂ : List (String × ℚ)) (m : String) :
    lookupQ (l₁ ++ l₂) m = if m ∈ keys l₁ then lookupQ l₁ m else lookupQ l₂ m := by
  induction l₁ with
  | nil => simp [keys, lookupQ]
  | cons p l ih =>
    by_cases hp : p.1 = m
    · simp [lookupQ, hp, keys]
    · have hne : m ≠ p.1 := fun h => hp h.symm
      rw [List.cons_append,
        show lookupQ (p :: (l ++ l₂)) m = lookupQ (l ++ l₂) m from by
          simp [lookupQ, hp],
        ih]
      by_cases hm : m ∈ List.map Prod.fst l
      · simp [keys, hm, List.mem_cons, lookupQ, hp]
      · simp [keys, hm, List.mem_cons, hne]

lemma keys_subIfPresent (l : List (String × ℚ)) (k : String) (v : ℚ) :
    keys (Analytics.subIfPresent l k v) = keys l := by
  unfold Analytics.subIfPresent keys
  rw [List.map_map]
  refine List.map_congr_left ?_
  intro p _
  by_cases hp : p.1 = k <;> simp [hp]

lemma keys_addIfPresent (l : List (String × ℚ)) (k : String) (v : ℚ) :
    keys (Analytics.addIfPresent l k v) = keys l := by
  unfold Analytics.addIfPresent keys
  rw [List.map_map]
  refine List.map_congr_left ?_
  intro p _
  by_cases hp : p.1 = k <;> simp [hp]

lemma lookupQ_subIfPresent (l : List (String × ℚ)) (k q : String) (v : ℚ) :
    lookupQ (Analytics.subIfPresent l k v) q =
      lookupQ l q - (if q = k ∧ q ∈ keys l then v else 0) := by
  induction l with
  | nil => simp [Analytics.subIfPresent, lookupQ, keys]
  | cons p l ih =>
    have hstep : Analytics.subIfPresent (p :: l) k v =
        (if p.1 = k then (p.1, p.2 - v) else p) :: Analytics.subIfPresent l k v := by
      simp [Analytics.subIfPresent]
    by_cases hpq : p.1 = q
    · by_cases hpk : p.1 = k
      · have hqk : q = k := hpq ▸ hpk
        have hmem : q ∈ keys (p :: l) := by simp [keys, hpq]
        have hkmem : k ∈ keys (p :: l) := hqk ▸ hmem
        rw [hstep]
        simp [lookupQ, hpq, hpk, hqk, hmem, hkmem]
      · have hqk : ¬ q = k := fun h => hpk (hpq.symm ▸ h)
        rw [hstep]
        simp [lookupQ, hpq, hpk, hqk]
    · have htail : q ∈ keys (p :: l) ↔ q ∈ keys l := by
        simp [keys]
        intro h
        exact absurd h.symm hpq
      rw [hstep]
      by_cases hpk : p.1 = k
      · simp only [if_pos hpk, lookupQ, if_neg hpq, ih, htail]
      · simp only [if_neg hpk, lookupQ, if_neg hpq, ih, htail]

lemma lookupQ_addIfPresent (l : List (String × ℚ)) (k q : String) (v : ℚ) :
    lookupQ (Analytics.addIfPresent l k v) q =
      lookupQ l q + (if q = k ∧ q ∈ keys l then v else 0) := by
  induction l with
  | nil => simp [Analytics.addIfPresent, lookupQ, keys]
  | cons p l ih =>
    have hstep : Analytics.addIfPresent (p :: l) k v =
        (if p.1 = k then (p.1, p.2 + v) else p) :: Analytics.addIfPresent l k v := by
      simp [Analytics.addIfPresent]
    by_cases hpq : p.1 = q
    · by_cases hpk : p.1 = k
      · have hqk : q = k := hpq ▸ hpk
        have hmem : q ∈ keys (p :: l) := by simp [keys, hpq]
        have hkmem : k ∈ keys (p :: l) := hqk ▸ hmem
        rw [hstep]
        simp [lookupQ, hpq, hpk, hqk, hmem, hkmem]
      · have hqk : ¬ q = k := fun h => hpk (hpq.symm ▸ h)
        rw [hstep]
        simp [lookupQ, hpq, hpk, hqk]
    · have htail : q ∈ keys (p :: l) ↔ q ∈ keys l := by
        simp [keys]
        intro h
        exact absurd h.symm hpq
      rw [hstep]
      by_cases hpk : p.1 = k
      · simp only [if_pos hpk, lookupQ, if_neg hpq, ih, htail]
      · simp only [if_neg hpk, lookupQ, if_neg hpq, ih, htail]

lemma subIfPresent_of_not_mem {l : List (String × ℚ)} {k : String} (v : ℚ)
    (h : k ∉ keys l) : Analytics.subIfPresent l k v = l := by
  induction l with
  | nil => rfl
  | cons p l ih =>
    have hp : p.1 ≠ k := by
      intro hq
      exact h (by simp [keys, hq])
    have htail : k ∉ keys l := by
      intro hq
      exact h (by simp [keys] at hq ⊢; exact Or.inr hq)
    simp [Analytics.subIfPresent, hp] at ih ⊢
    exact ih htail

lemma sumValues_cons (p : String × ℚ) (l : List (String × ℚ)) :
    sumValues (p :: l) = p.2 + sumValues l := by
  simp [sumValues]

lemma sumValues_subIfPresent (l : List (String × ℚ)) (k : String) (v : ℚ)
    (hnd : (keys l).Nodup) :
    sumValues (Analytics.subIfPresent l k v) =
      sumValues l - (if k ∈ keys l then v else 0) := by
  induction l with
  | nil => simp [Analytics.subIfPresent, sumValues, keys]
  | cons p l ih =>
    have hnd' : (keys l).Nodup := by
      simp only [keys, List.map_cons, List.nodup_cons] at hnd
      exact hnd.2
    have hstep : Analytics.subIfPresent (p :: l) k v =
        (if p.1 = k then (p.1, p.2 - v) else p) :: Analytics.subIfPresent l k v := by
      simp [Analytics.subIfPresent]
    by_cases hp : p.1 = k
    · have hk : k ∉ keys l := by
        simp only [keys, List.map_cons, List.nodup_cons] at hnd
        exact hp ▸ hnd.1
      have hmem : k ∈ keys (p :: l) := by simp [keys, hp]
      rw [hstep, if_pos hp, sumValues_cons, subIfPresent_of_not_mem v hk,
        if_pos hmem, sumValues_cons]
      ring
    · have hiff : k ∈ keys (p :: l) ↔ k ∈ keys l := by
        simp [keys]
        intro h
        exact absurd h.symm hp
      rw [hstep, if_neg hp, sumValues_cons, ih hnd', sumValues_cons]
      by_cases hm : k ∈ keys l
      · rw [if_pos hm, if_pos (hiff.mpr hm)]
        ring
      · rw [if_neg hm, if_neg (fun h => hm (hiff.mp h))]
        ring

lemma sumValues_addIfPresent (l : List (String × ℚ)) (k : String) (v : ℚ)
    (hnd : (keys l).Nodup) :
    sumValues (Analytics.addIfPresent l k v) =
      sumValues l + (if k ∈ keys l then v else 0) := by
  have h := sumValues_subIfPresent l k (-v) hnd
  have hrw : Analytics.addIfPresent l k v = Analytics.subIfPresent l k (-v) := by
    simp [Analytics.addIfPresent, Analytics.subIfPresent, sub_neg_eq_add]
  rw [hrw, h]
  by_cases hm : k ∈ keys l <;> simp [hm]

/-! ## Fold lemmas for the analytics balance computation -/

lemma keys_caFold (ca : List (String × ℚ)) (bal : List (String × ℚ)) :
    keys (ca.foldl (fun b q => Analytics.subIfPresent b q.1 q.2) bal) = keys bal := by
  induction ca generalizing bal with
  | nil => rfl
  | cons q ca ih => simp [List.foldl_cons, ih, keys_subIfPresent]

lemma keys_eqFold (xs : List String) (s : ℚ) (bal : List (String × ℚ)) :
    keys (xs.foldl (fun b m => Analytics.subIfPresent b m s) bal) = keys bal := by
  induction xs generalizing bal with
  | nil => rfl
  | cons x xs ih => simp [List.foldl_cons, ih, keys_subIfPresent]

lemma lookupQ_caFold (ca : List (String × ℚ)) (bal : List (String × ℚ)) (m : String) :
    lookupQ (ca.foldl (fun b q => Analytics.subIfPresent b q.1 q.2) bal) m =
      lookupQ bal m - (if m ∈ keys bal then caSum ca m else 0) := by
  induction ca generalizing bal with
  | nil => simp [caSum]
  | cons q ca ih =>
    rw [List.foldl_cons, ih, lookupQ_subIfPresent, keys_subIfPresent]
    have hsum : caSum (q :: ca) m = (if q.1 = m then q.2 else 0) + caSum ca m := by
      by_cases hq : q.1 = m <;> simp [caSum, hq]
    by_cases hm : m ∈ keys bal
    · rw [if_pos hm, if_pos hm, hsum]
      by_cases hq : m = q.1
      · rw [if_pos ⟨hq, hm⟩, if_pos hq.symm]
        ring
      · rw [if_neg (fun h => hq h.1), if_neg (fun h => hq h.symm)]
        ring
    · rw [if_neg (fun h => hm h.2), if_neg hm, if_neg hm]
      ring

lemma lookupQ_eqFold (xs : List String) (s : ℚ) (bal : List (String × ℚ)) (m : String) :
    lookupQ (xs.foldl (fun b x => Analytics.subIfPresent b x s) bal) m =
      lookupQ bal m - (if m ∈ keys bal then s * (xs.count m) else 0) := by
  induction xs generalizing bal with
  | nil => simp
  | cons x xs ih =>
    rw [List.foldl_cons, ih, lookupQ_subIfPresent, keys_subIfPresent]
    by_cases hm : m ∈ keys bal
    · rw [if_pos hm, if_pos hm]
      by_cases hx : m = x
      · rw [if_pos ⟨hx, hm⟩]
        subst hx
        simp only [List.count_cons, beq_self_eq_true, if_true]
        push_cast
        ring
      · rw [if_neg (fun h => hx h.1)]
        have hbeq : (x == m) = false := by
          simp only [beq_eq_false_iff_ne, ne_eq]
          exact fun h => hx h.symm
        simp only [List.count_cons, hbeq, if_false]
        push_cast
        ring
    · rw [if_neg (fun h => hm h.2), if_neg hm, if_neg hm]
      ring

lemma sumValues_caFold (ca : List (String × ℚ)) (bal : List (String × ℚ))
    (hnd : (keys bal).Nodup) (hsub : ∀ q ∈ ca, q.1 ∈ keys bal) :
    sumValues (ca.foldl (fun b q => Analytics.subIfPresent b q.1 q.2) bal) =
      sumValues bal - sumValues ca := by
  induction ca generalizing bal with
  | nil => simp [sumValues]
  | cons q ca ih =>
    rw [List.foldl_cons,
      ih (Analytics.subIfPresent bal q.1 q.2)
        (by rw [keys_subIfPresent]; exact hnd)
        (by
          intro r hr
          rw [keys_subIfPresent]
          exact hsub r (List.mem_cons_of_mem _ hr)),
      sumValues_subIfPresent bal q.1 q.2 hnd,
      if_pos (hsub q (List.mem_cons_self _ _)), sumValues_cons]
    ring

lemma sumValues_eqFold (xs : List String) (s : ℚ) (bal : List (String × ℚ))
    (hnd : (keys bal).Nodup) (hsub : ∀ x ∈ xs, x ∈ keys bal) :
    sumValues (xs.foldl (fun b x => Analytics.subIfPresent b x s) bal) =
      sumValues bal - s * xs.length := by
  induction xs generalizing bal with
  | nil => simp
  | cons x xs ih =>
    rw [List.foldl_cons,
      ih (Analytics.subIfPresent bal x s)
        (by rw [keys_subIfPresent]; exact hnd)
        (by
          intro r hr
          rw [keys_subIfPresent]
          exact hsub r (List.mem_cons_of_mem _ hr)),
      sumValues_subIfPresent bal x s hnd,
      if_pos (hsub x (List.mem_cons_self _ _))]
    simp only [List.length_cons]
    push_cast
    ring

/-! ## Keys and sums through the analytics balance computation -/

lemma keys_applyExpense (bal : List (String × ℚ)) (e : Expense) :
    keys (Analytics.applyExpense bal e) = keys bal := by
  unfold Analytics.applyExpense
  by_cases hc : e.splitMethod = "custom" ∧ e.customAmounts.isSome
  · simp only [if_pos hc, keys_addIfPresent, keys_caFold]
  · simp only [if_neg hc, keys_addIfPresent, keys_eqFold]

lemma keys_foldl_applyExpense (es : List Expense) (bal : List (String × ℚ)) :
    keys (es.foldl Analytics.applyExpense bal) = keys bal := by
  induction es generalizing bal with
  | nil => rfl
  | cons e es ih => rw [List.foldl_cons, ih, keys_applyExpense]

lemma keys_seed (ms : List String) :
    keys (ms.map (fun m => (m, (0:ℚ)))) = ms := by
  induction ms with
  | nil => rfl
  | cons m ms ih => simpa [keys] using ih

lemma lookupQ_seed (ms : List String) (q : String) :
    lookupQ (ms.map (fun m => (m, (0:ℚ)))) q = 0 := by
  induction ms with
  | nil => rfl
  | cons m ms ih =>
    by_cases hm : m = q <;> simp [lookupQ, hm, ih]

lemma sumValues_seed (ms : List String) :
    sumValues (ms.map (fun m => (m, (0:ℚ)))) = 0 := by
  induction ms with
  | nil => rfl
  | cons m ms ih => simpa [sumValues] using ih

lemma keys_calculateBalances (es : List Expense) (ms : List String) :
    keys (Analytics.calculateBalances es ms) = ms := by
  unfold Analytics.calculateBalances
  rw [keys_foldl_applyExpense, keys_seed]

/-- The hypotheses of the zero-sum claim on one expense, relative to a member
list: the payer and all split participants (including all `customAmounts`
keys) are members, a custom split's shares sum to the amount, and — the
amended condition — an expense settled by the equal-split path has a
non-empty `splitAmong`. -/
def Analytics.validExpense (members : List String) (e : Expense) : Prop :=
  e.paidBy ∈ members ∧
  (∀ m ∈ e.splitAmong, m ∈ members) ∧
  (∀ ca, e.customAmounts = some ca → ∀ q ∈ ca, q.1 ∈ members) ∧
  (e.splitMethod = "custom" → ∀ ca, e.customAmounts = some ca →
    sumValues ca = e.amount) ∧
  (¬ (e.splitMethod = "custom" ∧ e.customAmounts.isSome) → e.splitAmong ≠ [])

lemma applyExpense_custom (bal : List (String × ℚ)) (e : Expense)
    (ca : List (String × ℚ)) (h1 : e.splitMethod = "custom")
    (hca : e.customAmounts = some ca) :
    Analytics.applyExpense bal e =
      Analytics.addIfPresent
        (ca.foldl (fun b q => Analytics.subIfPresent b q.1 q.2) bal)
        e.paidBy e.amount := by
  unfold Analytics.applyExpense
  rw [hca]
  simp [h1]

lemma applyExpense_equal (bal : List (String × ℚ)) (e : Expense)
    (h : ¬ (e.splitMethod = "custom" ∧ e.customAmounts.isSome)) :
    Analytics.applyExpense bal e =
      Analytics.addIfPresent
        (e.splitAmong.foldl
          (fun b m => Analytics.subIfPresent b m (e.amount / (e.splitAmong.length : ℚ))) bal)
        e.paidBy e.amount := by
  unfold Analytics.applyExpense
  simp only [if_neg h]

lemma sumValues_applyExpense (bal : List (String × ℚ)) (e : Expense)
    (hnd : (keys bal).Nodup) (hv : Analytics.validExpense (keys bal) e) :
    sumValues (Analytics.applyExpense bal e) = sumValues bal := by
  obtain ⟨hpaid, hsplit, hkeys, hsum, hne⟩ := hv
  by_cases hc : e.splitMethod = "custom" ∧ e.customAmounts.isSome
  · obtain ⟨ca, hca⟩ := Option.isSome_iff_exists.mp hc.2
    rw [applyExpense_custom bal e ca hc.1 hca,
      sumValues_addIfPresent _ _ _
        (by rw [keys_caFold]; exact hnd),
      sumValues_caFold ca bal hnd (hkeys ca hca),
      keys_caFold, if_pos hpaid, hsum hc.1 ca hca]
    ring
  · have hlen : ((e.splitAmong.length : ℚ)) ≠ 0 := by
      have hne' := hne hc
      exact (Nat.cast_ne_zero (R := ℚ)).mpr
        (fun h => hne' (List.length_eq_zero.mp h))
    rw [applyExpense_equal bal e hc,
      sumValues_addIfPresent _ _ _
        (by rw [keys_eqFold]; exact hnd),
      sumValues_eqFold _ _ _ hnd hsplit, keys_eqFold, if_pos hpaid,
      div_mul_cancel₀ _ hlen]
    ring

lemma sumValues_foldl_applyExpense (es : List Expense) (bal : List (String × ℚ))
    (hnd : (keys bal).Nodup) (hv : ∀ e ∈ es, Analytics.validExpense (keys bal) e) :
    sumValues (es.foldl Analytics.applyExpense bal) = sumValues bal := by
  induction es generalizing bal with
  | nil => rfl
  | cons e es ih =>
    rw [List.foldl_cons,
      ih (Analytics.applyExpense bal e)
        (by rw [keys_applyExpense]; exact hnd)
        (by
          intro e' he'
          rw [keys_applyExpense]
          exact hv e' (List.mem_cons_of_mem _ he')),
      sumValues_applyExpense bal e hnd (hv e (List.mem_cons_self _ _))]

/-! ## Lemmas for the server balance computation -/

lemma keys_setMap (l : List (String × ℚ)) (k : String) (v : ℚ) :
    keys (l.map (fun p => if p.1 = k then (p.1, v) else p)) = keys l := by
  unfold keys
  rw [List.map_map]
  refine List.map_congr_left ?_
  intro p _
  by_cases hp : p.1 = k <;> simp [hp]

lemma lookupQ_setMap (l : List (String × ℚ)) (k q : String) (v : ℚ) :
    lookupQ (l.map (fun p => if p.1 = k then (p.1, v) else p)) q =
      if q = k ∧ q ∈ keys l then v else lookupQ l q := by
  induction l with
  | nil => simp [lookupQ, keys]
  | cons p l ih =>
    by_cases hpq : p.1 = q
    · by_cases hpk : p.1 = k
      · have hqk : q = k := hpq ▸ hpk
        have hmem : q ∈ keys (p :: l) := by simp [keys, hpq]
        have hkmem : k ∈ keys (p :: l) := hqk ▸ hmem
        simp [lookupQ, hpq, hpk, hqk, hmem, hkmem]
      · have hqk : ¬ q = k := fun h => hpk (hpq.symm ▸ h)
        simp [lookupQ, hpq, hpk, hqk]
    · have htail : q ∈ keys (p :: l) ↔ q ∈ keys l := by
        simp [keys]
        intro h
        exact absurd h.symm hpq
      by_cases hpk : p.1 = k
      · simp only [List.map_cons, if_pos hpk, lookupQ, if_neg hpq, ih, htail]
      · simp only [List.map_cons, if_neg hpk, lookupQ, if_neg hpq, ih, htail]

lemma lookupQ_jsSet_self (l : List (String × ℚ)) (m : String) (v : ℚ) :
    lookupQ (Server.jsSet l m v) m = v := by
  unfold Server.jsSet
  by_cases hm : m ∈ keys l
  · rw [if_pos hm, lookupQ_setMap, if_pos ⟨rfl, hm⟩]
  · rw [if_neg hm, lookupQ_append, if_neg hm]
    simp [lookupQ]

lemma lookupQ_jsSet_other (l : List (String × ℚ)) (m q : String) (v : ℚ)
    (h : q ≠ m) : lookupQ (Server.jsSet l m v) q = lookupQ l q := by
  unfold Server.jsSet
  by_cases hm : m ∈ keys l
  · rw [if_pos hm, lookupQ_setMap, if_neg (fun hh => h hh.1)]
  · rw [if_neg hm, lookupQ_append]
    by_cases hq : q ∈ keys l
    · rw [if_pos hq]
    · rw [if_neg hq, lookupQ_eq_zero_of_not_mem hq]
      simp only [lookupQ, if_neg (fun hh : m = q => h hh.symm)]

lemma mem_keys_jsSet_self (l : List (String × ℚ)) (m : String) (v : ℚ) :
    m ∈ keys (Server.jsSet l m v) := by
  unfold Server.jsSet
  by_cases hm : m ∈ keys l
  · rw [if_pos hm, keys_setMap]
    exact hm
  · rw [if_neg hm]
    simp [keys]

lemma mem_keys_jsSet_mono (l : List (String × ℚ)) (m q : String) (v : ℚ)
    (h : q ∈ keys l) : q ∈ keys (Server.jsSet l m v) := by
  unfold Server.jsSet
  by_cases hm : m ∈ keys l
  · rw [if_pos hm, keys_setMap]
    exact h
  · rw [if_neg hm]
    simp only [keys, List.map_append, List.mem_append]
    exact Or.inl h

lemma lookupQ_jsSubFold (xs : List String) (g : String → ℚ)
    (bal : List (String × ℚ)) (q : String) :
    lookupQ (xs.foldl (fun b m => Server.jsSet b m (lookupQ b m - g m)) bal) q =
      lookupQ bal q - (List.count q xs : ℚ) * g q := by
  induction xs generalizing bal with
  | nil => simp
  | cons x xs ih =>
    rw [List.foldl_cons, ih]
    by_cases hq : q = x
    · subst hq
      rw [lookupQ_jsSet_self]
      simp only [List.count_cons, beq_self_eq_true, if_true]
      push_cast
      ring
    · rw [lookupQ_jsSet_other _ _ _ _ hq]
      have hbeq : (x == q) = false := by
        simp only [beq_eq_false_iff_ne, ne_eq]
        exact fun h => hq h.symm
      simp [List.count_cons, hbeq]

lemma mem_keys_jsSubFold (xs : List String) (g : String → ℚ)
    (bal : List (String × ℚ)) (q : String) (h : q ∈ keys bal) :
    q ∈ keys (xs.foldl (fun b m => Server.jsSet b m (lookupQ b m - g m)) bal) := by
  induction xs generalizing bal with
  | nil => exact h
  | cons x xs ih =>
    rw [List.foldl_cons]
    exact ih _ (mem_keys_jsSet_mono _ _ _ _ h)

lemma serverApplyExpense_equal (bal : List (String × ℚ)) (e : Expense)
    (h : ¬ (e.splitMethod = "custom" ∧ e.customAmounts.isSome)) :
    Server.applyExpense bal e =
      e.splitAmong.foldl
        (fun b m => Server.jsSet b m
          (lookupQ b m - e.amount / (e.splitAmong.length : ℚ)))
        (Server.jsSet bal e.paidBy (lookupQ bal e.paidBy + e.amount)) := by
  unfold Server.applyExpense
  simp only [if_neg h]

lemma serverApplyExpense_custom (bal : List (String × ℚ)) (e : Expense)
    (ca : List (String × ℚ)) (h1 : e.splitMethod = "custom")
    (hca : e.customAmounts = some ca) :
    Server.applyExpense bal e =
      e.splitAmong.foldl
        (fun b m => Server.jsSet b m (lookupQ b m - lookupQ ca m))
        (Server.jsSet bal e.paidBy (lookupQ bal e.paidBy + e.amount)) := by
  unfold Server.applyExpense
  rw [hca]
  simp [h1, Server.caGet]

/-! ## Claim C2: zero-sum invariant of the balance map -/

/-- C2 (amended): for an expense list over a duplicate-free member list in
which every payer, split participant and `customAmounts` key is a member,
every custom split's shares sum to its amount, and — the amendment forced by
the counterexample — every expense settled by the equal-split path has a
non-empty `splitAmong`, the values of the balance map returned by the
analytics router's `calculateBalances` sum to exactly 0 over ℚ. -/
theorem C2_amended_thm (expenses : List Expense) (members : List String)
    (hnd : members.Nodup)
    (hv : ∀ e ∈ expenses, Analytics.validExpense members e) :
    sumValues (Analytics.calculateBalances expenses members) = 0 := by
  unfold Analytics.calculateBalances
  rw [sumValues_foldl_applyExpense _ _
      (by rw [keys_seed]; exact hnd)
      (by rw [keys_seed]; exact hv),
    sumValues_seed]

/-- C2 counterexample: an equal-split expense with an empty `splitAmong`
satisfies every hypothesis of the claim (its payer is a member, it has no
split participants, it is not custom), yet the balances sum to the full
amount, not 0 — in both implementations.  A second input shows the server
implementation additionally breaks the zero-sum property for a valid custom
split whose `customAmounts` has a key outside `splitAmong`. -/
theorem C2_counterexample :
    (Expense.mk 100 "a" [] "equal" none).paidBy ∈ ["a"] ∧
    (∀ m ∈ (Expense.mk 100 "a" [] "equal" none).splitAmong, m ∈ ["a"]) ∧
    (Expense.mk 100 "a" [] "equal" none).splitMethod ≠ "custom" ∧
    sumValues (Analytics.calculateBalances
      [Expense.mk 100 "a" [] "equal" none] ["a"]) = 100 ∧
    sumValues (Server.calculateGroupAnalyticsBalances
      [Expense.mk 100 "a" [] "equal" none] ["a"]) = 100 ∧
    sumValues [("a", (50:ℚ)), ("b", 50)] =
      (Expense.mk 100 "a" ["a"] "custom" (some [("a", 50), ("b", 50)])).amount ∧
    sumValues (Server.calculateGroupAnalyticsBalances
      [Expense.mk 100 "a" ["a"] "custom" (some [("a", 50), ("b", 50)])]
      ["a", "b"]) = 50 ∧
    (100:ℚ) ≠ 0 ∧ (50:ℚ) ≠ 0 := by
  refine ⟨by simp, by simp, by simp, ?_, ?_, ?_, ?_, by norm_num, by norm_num⟩
  · simp [Analytics.calculateBalances, Analytics.applyExpense,
      Analytics.subIfPresent, Analytics.addIfPresent, sumValues]
    try norm_num
  · simp [Server.calculateGroupAnalyticsBalances, Server.applyExpense,
      Server.jsSet, Server.caGet, keys, lookupQ, sumValues]
    try norm_num
  · simp [sumValues]
    try norm_num
  · simp [Server.calculateGroupAnalyticsBalances, Server.applyExpense,
      Server.jsSet, Server.caGet, keys, lookupQ, sumValues]
    try norm_num

/-- C2 witness: the amended theorem applied to a concrete valid input. -/
theorem C2_witness :
    sumValues (Analytics.calculateBalances
      [Expense.mk 10 "A" ["A", "B"] "equal" none] ["A", "B"]) = 0 :=
  C2_amended_thm _ _ (by decide)
    (by
      intro e he
      rw [List.mem_singleton] at he
      subst he
      refine ⟨by decide, by decide, ?_, ?_, ?_⟩
      · intro ca h
        simp at h
      · intro hm ca h
        simp at h
      · intro hcond
        simp)

/-! ## Claim C7: equal-split correctness -/

/-- The single equal-split expense of claim C7. -/
def eqSplitExpense (A : ℚ) (p : String) (parts : List String) : Expense :=
  ⟨A, p, parts, "equal", none⟩

/-- C7: for an amount `A > 0`, a payer `p`, and `n ≥ 1` distinct participants
that are members and do not include `p`, the single equal-split expense paid
by `p` gives `p` balance `A` and every participant balance `-A/n`.  This
holds in both implementations. -/
theorem C7_thm (A : ℚ) (p : String) (parts members : List String)
    (hA : 0 < A) (hnd : members.Nodup) (hp : p ∈ members)
    (hparts : parts.Nodup) (hsub : ∀ q ∈ parts, q ∈ members) (hpq : p ∉ parts)
    (hne : parts ≠ []) :
    lookupQ (Analytics.calculateBalances [eqSplitExpense A p parts] members) p
        = A ∧
    (∀ q ∈ parts,
      lookupQ (Analytics.calculateBalances [eqSplitExpense A p parts] members) q
        = -(A / (parts.length : ℚ))) ∧
    lookupQ (Server.calculateGroupAnalyticsBalances
        [eqSplitExpense A p parts] members) p = A ∧
    (∀ q ∈ parts,
      lookupQ (Server.calculateGroupAnalyticsBalances
          [eqSplitExpense A p parts] members) q
        = -(A / (parts.length : ℚ))) := by
  have hcond : ¬ ((eqSplitExpense A p parts).splitMethod = "custom" ∧
      (eqSplitExpense A p parts).customAmounts.isSome) := by
    simp [eqSplitExpense]
  have hone : Analytics.calculateBalances [eqSplitExpense A p parts] members =
      Analytics.applyExpense (members.map (fun m => (m, 0))) (eqSplitExpense A p parts) := by
    simp [Analytics.calculateBalances]
  have hsone : Server.calculateGroupAnalyticsBalances [eqSplitExpense A p parts] members =
      Server.applyExpense (members.map (fun m => (m, 0))) (eqSplitExpense A p parts) := by
    simp [Server.calculateGroupAnalyticsBalances]
  refine ⟨?_, ?_, ?_, ?_⟩
  · rw [hone, applyExpense_equal _ _ hcond, lookupQ_addIfPresent, lookupQ_eqFold,
      keys_eqFold, keys_seed, lookupQ_seed]
    have hcount : (List.count p parts : ℚ) = 0 := by
      rw [List.count_eq_zero.mpr hpq]
      norm_num
    rw [if_pos hp]
    show (0 : ℚ) - _ * List.count p ((eqSplitExpense A p parts).splitAmong) +
      (if p = (eqSplitExpense A p parts).paidBy ∧ p ∈ members then
        (eqSplitExpense A p parts).amount else 0) = A
    rw [show (eqSplitExpense A p parts).splitAmong = parts from rfl, hcount,
      if_pos ⟨rfl, hp⟩]
    show (0:ℚ) - _ * 0 + A = A
    ring
  · intro q hq
    have hqp : ¬ q = (eqSplitExpense A p parts).paidBy := by
      intro h
      have hp' : q = p := h
      exact hpq (hp' ▸ hq)
    rw [hone, applyExpense_equal _ _ hcond, lookupQ_addIfPresent, lookupQ_eqFold,
      keys_eqFold, keys_seed, lookupQ_seed, if_pos (hsub q hq),
      if_neg (fun h => hqp h.1)]
    have hcount : (List.count q ((eqSplitExpense A p parts).splitAmong) : ℚ) = 1 := by
      rw [show (eqSplitExpense A p parts).splitAmong = parts from rfl,
        List.count_eq_one_of_mem hparts hq]
      norm_num
    rw [hcount]
    show (0:ℚ) - (eqSplitExpense A p parts).amount / (parts.length : ℚ) * 1 + 0
      = -(A / (parts.length : ℚ))
    show (0:ℚ) - A / (parts.length : ℚ) * 1 + 0 = -(A / (parts.length : ℚ))
    ring
  · rw [hsone, serverApplyExpense_equal _ _ hcond, lookupQ_jsSubFold]
    have hcount : (List.count p ((eqSplitExpense A p parts).splitAmong) : ℚ) = 0 := by
      rw [show (eqSplitExpense A p parts).splitAmong = parts from rfl,
        List.count_eq_zero.mpr hpq]
      norm_num
    rw [show (eqSplitExpense A p parts).paidBy = p from rfl, lookupQ_jsSet_self,
      lookupQ_seed, hcount]
    show (0:ℚ) + A - 0 * _ = A
    ring
  · intro q hq
    have hqp : q ≠ p := by
      intro h
      exact hpq (h ▸ hq)
    rw [hsone, serverApplyExpense_equal _ _ hcond, lookupQ_jsSubFold,
      show (eqSplitExpense A p parts).paidBy = p from rfl,
      lookupQ_jsSet_other _ _ _ _ hqp, lookupQ_seed]
    have hcount : (List.count q ((eqSplitExpense A p parts).splitAmong) : ℚ) = 1 := by
      rw [show (eqSplitExpense A p parts).splitAmong = parts from rfl,
        List.count_eq_one_of_mem hparts hq]
      norm_num
    rw [hcount]
    show (0:ℚ) - 1 * (A / (parts.length : ℚ)) = -(A / (parts.length : ℚ))
    ring

/-- C7 witness: amount 90 paid by A, split equally among B and C. -/
theorem C7_witness :
    lookupQ (Analytics.calculateBalances [eqSplitExpense 90 "A" ["B", "C"]]
      ["A", "B", "C"]) "A" = 90 ∧
    lookupQ (Analytics.calculateBalances [eqSplitExpense 90 "A" ["B", "C"]]
      ["A", "B", "C"]) "B" = -(90 / 2) ∧
    lookupQ (Server.calculateGroupAnalyticsBalances
      [eqSplitExpense 90 "A" ["B", "C"]] ["A", "B", "C"]) "A" = 90 ∧
    lookupQ (Server.calculateGroupAnalyticsBalances
      [eqSplitExpense 90 "A" ["B", "C"]] ["A", "B", "C"]) "B" = -(90 / 2) := by
  have h := C7_thm 90 "A" ["B", "C"] ["A", "B", "C"] (by norm_num) (by decide)
    (by decide) (by decide) (by decide) (by decide) (by decide)
  refine ⟨h.1, ?_, h.2.2.1, ?_⟩
  · have := h.2.1 "B" (by decide)
    simpa using this
  · have := h.2.2.2 "B" (by decide)
    simpa using this

/-! ## Claim C6: custom-split subtraction semantics -/

/-- C6 (amended): processing a custom expense with `customAmounts = ca`,
the analytics `calculateBalances` subtracts the recorded share from
`balances[member]` for every `(member, share)` pair of `ca` whose member is
a key of the balance map — with no condition on the sign of the share and
none on membership in `splitAmong` — while pairs whose member is not a key
are skipped entirely and the key set is unchanged.  The payer, if a key,
additionally receives the full amount.  The last conjunct ties the
per-expense statement to `calculateBalances`. -/
theorem C6_amended_thm (bal : List (String × ℚ)) (e : Expense)
    (ca : List (String × ℚ)) (m : String)
    (h1 : e.splitMethod = "custom") (hca : e.customAmounts = some ca) :
    (lookupQ (Analytics.applyExpense bal e) m =
      lookupQ bal m - (if m ∈ keys bal then caSum ca m else 0)
        + (if m = e.paidBy ∧ m ∈ keys bal then e.amount else 0)) ∧
    keys (Analytics.applyExpense bal e) = keys bal ∧
    (∀ (es : List Expense) (members : List String),
      Analytics.calculateBalances (es ++ [e]) members =
        Analytics.applyExpense (Analytics.calculateBalances es members) e) := by
  refine ⟨?_, keys_applyExpense bal e, ?_⟩
  · rw [applyExpense_custom bal e ca h1 hca, lookupQ_addIfPresent,
      lookupQ_caFold, keys_caFold]
  · intro es members
    simp [Analytics.calculateBalances, List.foldl_append]

/-- C6 counterexample: the claim as stated demands a subtraction for *every*
`customAmounts` pair, but a pair whose member is not seeded (`z` here) is
skipped by the `hasOwnProperty` guard: the result holds no entry for `z` at
all, and the seeded member's value is the only one affected. -/
theorem C6_counterexample :
    Analytics.calculateBalances
      [Expense.mk 15 "a" ["a"] "custom" (some [("a", 10), ("z", 5)])] ["a"]
      = [("a", 5)] ∧
    "z" ∉ keys (Analytics.calculateBalances
      [Expense.mk 15 "a" ["a"] "custom" (some [("a", 10), ("z", 5)])] ["a"]) ∧
    lookupQ (Analytics.calculateBalances
      [Expense.mk 15 "a" ["a"] "custom" (some [("a", 10), ("z", 5)])] ["a"]) "z"
      = 0 ∧
    ((0:ℚ) ≠ -5) := by
  have h : Analytics.calculateBalances
      [Expense.mk 15 "a" ["a"] "custom" (some [("a", 10), ("z", 5)])] ["a"]
      = [("a", 5)] := by
    simp [Analytics.calculateBalances, Analytics.applyExpense,
      Analytics.subIfPresent, Analytics.addIfPresent]
    norm_num
  refine ⟨h, ?_, ?_, by norm_num⟩
  · rw [h]
    simp [keys]
  · rw [h]
    simp [lookupQ]

/-- C6 witness: a negative share and a member absent from `splitAmong` are
both subtracted (hence added, for the negative one) for seeded members. -/
theorem C6_witness :
    lookupQ (Analytics.applyExpense [("a", (0:ℚ)), ("b", 0)]
      (Expense.mk 7 "q" [] "custom" (some [("a", -5), ("b", 7)]))) "a" = 5 := by
  have h := (C6_amended_thm [("a", (0:ℚ)), ("b", 0)]
    (Expense.mk 7 "q" [] "custom" (some [("a", -5), ("b", 7)]))
    [("a", -5), ("b", 7)] "a" rfl rfl).1
  rw [h]
  simp [caSum, keys, lookupQ]
  try norm_num

/-! ## Claim C5: payers outside the member list -/

lemma lookupQ_serverApplyExpense_nosplit (bal : List (String × ℚ)) (e : Expense)
    (p : String) (hp : p ∉ e.splitAmong) :
    lookupQ (Server.applyExpense bal e) p =
      lookupQ bal p + (if e.paidBy = p then e.amount else 0) := by
  have hcount : (List.count p e.splitAmong : ℚ) = 0 := by
    rw [List.count_eq_zero.mpr hp]
    norm_num
  have hpaid : lookupQ (Server.jsSet bal e.paidBy (lookupQ bal e.paidBy + e.amount)) p
      = lookupQ bal p + (if e.paidBy = p then e.amount else 0) := by
    by_cases hpp : e.paidBy = p
    · subst hpp
      rw [lookupQ_jsSet_self, if_pos rfl]
    · rw [lookupQ_jsSet_other _ _ _ _ (fun h => hpp h.symm), if_neg hpp]
      ring
  by_cases hc : e.splitMethod = "custom" ∧ e.customAmounts.isSome
  · obtain ⟨ca, hca⟩ := Option.isSome_iff_exists.mp hc.2
    rw [serverApplyExpense_custom bal e ca hc.1 hca, lookupQ_jsSubFold, hcount,
      hpaid]
    ring
  · rw [serverApplyExpense_equal bal e hc, lookupQ_jsSubFold, hcount, hpaid]
    ring

lemma mem_keys_serverApplyExpense_mono (bal : List (String × ℚ)) (e : Expense)
    (q : String) (h : q ∈ keys bal) : q ∈ keys (Server.applyExpense bal e) := by
  have h1 : q ∈ keys (Server.jsSet bal e.paidBy (lookupQ bal e.paidBy + e.amount)) :=
    mem_keys_jsSet_mono _ _ _ _ h
  by_cases hc : e.splitMethod = "custom" ∧ e.customAmounts.isSome
  · obtain ⟨ca, hca⟩ := Option.isSome_iff_exists.mp hc.2
    rw [serverApplyExpense_custom bal e ca hc.1 hca]
    exact mem_keys_jsSubFold _ _ _ _ h1
  · rw [serverApplyExpense_equal bal e hc]
    exact mem_keys_jsSubFold _ _ _ _ h1

lemma mem_keys_serverApplyExpense_paid (bal : List (String × ℚ)) (e : Expense) :
    e.paidBy ∈ keys (Server.applyExpense bal e) := by
  have h1 : e.paidBy ∈ keys (Server.jsSet bal e.paidBy (lookupQ bal e.paidBy + e.amount)) :=
    mem_keys_jsSet_self _ _ _
  by_cases hc : e.splitMethod = "custom" ∧ e.customAmounts.isSome
  · obtain ⟨ca, hca⟩ := Option.isSome_iff_exists.mp hc.2
    rw [serverApplyExpense_custom bal e ca hc.1 hca]
    exact mem_keys_jsSubFold _ _ _ _ h1
  · rw [serverApplyExpense_equal bal e hc]
    exact mem_keys_jsSubFold _ _ _ _ h1

lemma mem_keys_serverFold_mono (es : List Expense) (bal : List (String × ℚ))
    (q : String) (h : q ∈ keys bal) :
    q ∈ keys (es.foldl Server.applyExpense bal) := by
  induction es generalizing bal with
  | nil => exact h
  | cons e es ih =>
    rw [List.foldl_cons]
    exact ih _ (mem_keys_serverApplyExpense_mono _ _ _ h)

lemma paidSum_cons (e : Expense) (es : List Expense) (p : String) :
    paidSum (e :: es) p = (if e.paidBy = p then e.amount else 0) + paidSum es p := by
  by_cases hp : e.paidBy = p <;> simp [paidSum, hp]

lemma lookupQ_serverFold_nosplit (es : List Expense) (bal : List (String × ℚ))
    (p : String) (hp : ∀ e ∈ es, p ∉ e.splitAmong) :
    lookupQ (es.foldl Server.applyExpense bal) p = lookupQ bal p + paidSum es p := by
  induction es generalizing bal with
  | nil => simp [paidSum]
  | cons e es ih =>
    rw [List.foldl_cons, ih _ (fun e' he' => hp e' (List.mem_cons_of_mem _ he')),
      lookupQ_serverApplyExpense_nosplit bal e p (hp e (List.mem_cons_self _ _)),
      paidSum_cons]
    ring

lemma mem_keys_serverFold_paid (es : List Expense) (bal : List (String × ℚ))
    (p : String) (hpaid : ∃ e ∈ es, e.paidBy = p) :
    p ∈ keys (es.foldl Server.applyExpense bal) := by
  induction es generalizing bal with
  | nil => simp at hpaid
  | cons e es ih =>
    rw [List.foldl_cons]
    rcases hpaid with ⟨e', he', hp'⟩
    rcases List.mem_cons.mp he' with h | h
    · subst h
      exact mem_keys_serverFold_mono _ _ _ (hp' ▸ mem_keys_serverApplyExpense_paid bal e')
    · exact ih _ ⟨e', h, hp'⟩

/-- C5 (amended): for an identifier `p` outside the member list that appears
in no expense's `splitAmong`, the server implementation accumulates on a new
key: if some expense was paid by `p`, the balance map of
`calculateGroupAnalytics` contains the key `p` with value the sum of the
amounts of the expenses paid by `p`.  The analytics router's
`calculateBalances`, by contrast, guards every write with `hasOwnProperty`,
so its key set is always exactly the member list and the foreign payer is
dropped. -/
theorem C5_amended_thm (expenses : List Expense) (members : List String)
    (p : String) (hp : p ∉ members)
    (hsplit : ∀ e ∈ expenses, p ∉ e.splitAmong)
    (hpaid : ∃ e ∈ expenses, e.paidBy = p) :
    p ∈ keys (Server.calculateGroupAnalyticsBalances expenses members) ∧
    lookupQ (Server.calculateGroupAnalyticsBalances expenses members) p
      = paidSum expenses p ∧
    keys (Analytics.calculateBalances expenses members) = members ∧
    p ∉ keys (Analytics.calculateBalances expenses members) := by
  refine ⟨mem_keys_serverFold_paid _ _ _ hpaid, ?_,
    keys_calculateBalances expenses members, ?_⟩
  · unfold Server.calculateGroupAnalyticsBalances
    rw [lookupQ_serverFold_nosplit _ _ _ hsplit, lookupQ_seed]
    ring
  · rw [keys_calculateBalances]
    exact hp

/-- C5 counterexample: with members `[a]` and a single expense paid by the
foreign identifier `z`, the analytics `calculateBalances` — the claim's
first cited implementation — produces no key `z` at all: the payment is
silently dropped, contradicting the claimed accumulation. -/
theorem C5_counterexample :
    ("z" ∉ ["a"]) ∧
    Analytics.calculateBalances [Expense.mk 100 "z" ["a"] "equal" none] ["a"]
      = [("a", -100)] ∧
    "z" ∉ keys (Analytics.calculateBalances
      [Expense.mk 100 "z" ["a"] "equal" none] ["a"]) := by
  have h : Analytics.calculateBalances [Expense.mk 100 "z" ["a"] "equal" none] ["a"]
      = [("a", -100)] := by
    simp [Analytics.calculateBalances, Analytics.applyExpense,
      Analytics.subIfPresent, Analytics.addIfPresent]
    try norm_num
  refine ⟨by simp, h, ?_⟩
  rw [h]
  simp [keys]

/-- C5 witness: the amended theorem applied to the same concrete input. -/
theorem C5_witness :
    "z" ∈ keys (Server.calculateGroupAnalyticsBalances
      [Expense.mk 100 "z" ["a"] "equal" none] ["a"]) ∧
    lookupQ (Server.calculateGroupAnalyticsBalances
      [Expense.mk 100 "z" ["a"] "equal" none] ["a"]) "z"
      = paidSum [Expense.mk 100 "z" ["a"] "equal" none] "z" := by
  have h := C5_amended_thm [Expense.mk 100 "z" ["a"] "equal" none] ["a"] "z"
    (by decide) (by intro e he; rw [List.mem_singleton] at he; subst he; decide)
    ⟨Expense.mk 100 "z" ["a"] "equal" none, List.mem_singleton.mpr rfl, rfl⟩
  exact ⟨h.1, h.2.1⟩

/-! ## Claims C9 and C4: the expense-creation endpoint -/

/-- C9: for a creation request that passes the required-fields check and has
`splitMethod = "custom"`, the endpoint responds 400 exactly when
`customAmounts` is absent or its values' sum differs from `amount` by 0.01
or more; otherwise the expense is stored with those `customAmounts`. -/
theorem C9_thm (req : ExpensesRoute.PostReq)
    (hreq : ExpensesRoute.requiredPresent req = true)
    (hcm : req.splitMethod = some "custom") :
    (req.customAmounts = none →
      ExpensesRoute.postExpense req =
        .badRequest "Custom amounts required for custom split method") ∧
    (∀ ca, req.customAmounts = some ca →
      (eps ≤ |ExpensesRoute.caTotal ca - req.amount.getD 0| →
        ExpensesRoute.postExpense req =
          .badRequest "Custom amounts must sum to total amount") ∧
      (|ExpensesRoute.caTotal ca - req.amount.getD 0| < eps →
        ExpensesRoute.postExpense req =
          .created (ExpensesRoute.mkExpense req) ∧
        (ExpensesRoute.mkExpense req).customAmounts = some ca)) := by
  unfold ExpensesRoute.postExpense
  rw [if_neg (by simp [hreq]), if_pos hcm]
  constructor
  · intro hca
    rw [hca]
  · intro ca hca
    rw [hca]
    constructor
    · intro habs
      simp only [if_pos habs]
    · intro hlt
      refine ⟨by simp only [if_neg (not_le.mpr hlt)], ?_⟩
      simp [ExpensesRoute.mkExpense, hcm, hca]

/-- C9 witness: a well-formed custom request whose shares sum to the amount
is accepted and stored with its `customAmounts`. -/
theorem C9_witness :
    ExpensesRoute.postExpense
      (ExpensesRoute.PostReq.mk (some "g") (some "Dinner") (some 100)
        (some "u") (some "today") (some ["x", "y"]) (some "custom")
        (some [("x", 60), ("y", 40)]))
      = .created (ExpensesRoute.mkExpense
        (ExpensesRoute.PostReq.mk (some "g") (some "Dinner") (some 100)
          (some "u") (some "today") (some ["x", "y"]) (some "custom")
          (some [("x", 60), ("y", 40)]))) := by
  have hreq : ExpensesRoute.requiredPresent
      (ExpensesRoute.PostReq.mk (some "g") (some "Dinner") (some 100)
        (some "u") (some "today") (some ["x", "y"]) (some "custom")
        (some [("x", 60), ("y", 40)])) = true := by
    simp [ExpensesRoute.requiredPresent, ExpensesRoute.truthyS,
      ExpensesRoute.truthyQ, ExpensesRoute.truthyL]
    try norm_num
  have h := (C9_thm _ hreq rfl).2 [("x", 60), ("y", 40)] rfl
  refine (h.2 ?_).1
  simp [ExpensesRoute.caTotal]
  norm_num [eps]

/-- C4: the required-fields validation uses JS truthiness, and an empty
array is truthy (`![]` is `false`), so a request with `splitAmong = []` and
equal split is *not* rejected: the expense is created.  On the stored
record the analytics balance computation runs the equal-split branch with
`splitCount = 0`; the `forEach` over the empty array writes nothing, so the
resulting map holds only the payer's `+amount` (here summing to 50, not 0),
and no rejection ever occurs — contradicting the claimed 400. -/
theorem C4_thm :
    ExpensesRoute.postExpense
      (ExpensesRoute.PostReq.mk (some "g") (some "Dinner") (some 50)
        (some "u") (some "today") (some []) (some "equal") none)
      = .created (Expense.mk 50 "u" [] "equal" none) ∧
    Analytics.calculateBalances [Expense.mk 50 "u" [] "equal" none] ["u"]
      = [("u", 50)] := by
  constructor
  · simp [ExpensesRoute.postExpense, ExpensesRoute.requiredPresent,
      ExpensesRoute.truthyS, ExpensesRoute.truthyQ, ExpensesRoute.truthyL,
      ExpensesRoute.mkExpense, ExpensesRoute.methodOrEqual]
    try norm_num
  · simp [Analytics.calculateBalances, Analytics.applyExpense,
      Analytics.subIfPresent, Analytics.addIfPresent]
    try norm_num

/-! ## Claim C8: dead-zone members never settle -/

lemma value_eq_of_nodup {l : List (String × ℚ)} {m : String} {x y : ℚ}
    (hnd : (keys l).Nodup) (h1 : (m, x) ∈ l) (h2 : (m, y) ∈ l) : x = y := by
  have hx := lookupQ_entry hnd h1
  have hy := lookupQ_entry hnd h2
  rw [hx] at hy
  exact hy

lemma settleLoop_persons (ds cs : List Server.Party) :
    ∀ t ∈ Server.settleLoop ds cs,
      t.fromMember ∈ ds.map Server.Party.person ∧
      t.toMember ∈ cs.map Server.Party.person := by
  induction ds, cs using Server.settleLoop.induct with
  | case1 cs => simp [Server.settleLoop]
  | case2 d ds => simp [Server.settleLoop]
  | case3 d ds c cs hle ih1 ih2 =>
    intro t ht
    rw [Server.settleLoop, if_pos hle] at ht
    rcases List.mem_cons.mp ht with h | h
    · subst h
      exact ⟨by simp, by simp⟩
    · by_cases hr : c.amount - d.amount < eps
      · rw [if_pos hr] at h
        have hm := ih1 t h
        exact ⟨List.mem_cons_of_mem _ hm.1, List.mem_cons_of_mem _ hm.2⟩
      · rw [if_neg hr] at h
        have hm := ih2 t h
        refine ⟨List.mem_cons_of_mem _ hm.1, ?_⟩
        have h2 := hm.2
        simp only [List.map_cons, List.mem_cons] at h2 ⊢
        exact h2
  | case4 d ds c cs hle ih1 ih2 =>
    intro t ht
    rw [Server.settleLoop, if_neg hle] at ht
    rcases List.mem_cons.mp ht with h | h
    · subst h
      exact ⟨by simp, by simp⟩
    · by_cases hr : d.amount - c.amount < eps
      · rw [if_pos hr] at h
        have hm := ih1 t h
        exact ⟨List.mem_cons_of_mem _ hm.1, List.mem_cons_of_mem _ hm.2⟩
      · rw [if_neg hr] at h
        have hm := ih2 t h
        refine ⟨?_, List.mem_cons_of_mem _ hm.2⟩
        have h1 := hm.1
        simp only [List.map_cons, List.mem_cons] at h1 ⊢
        exact h1

lemma not_mem_debtors_person {bal : List (String × ℚ)} {m : String} {v : ℚ}
    (hnd : (keys bal).Nodup) (hmem : (m, v) ∈ bal) (h : ¬ v < -eps) :
    m ∉ (Server.debtors bal).map Server.Party.person := by
  intro hm
  simp only [Server.debtors, List.map_map, List.mem_map, Function.comp,
    List.mem_filter] at hm
  obtain ⟨p, ⟨hp, hlt⟩, hpm⟩ := hm
  have : p.2 = v := by
    refine value_eq_of_nodup hnd ?_ hmem
    rw [← hpm]
    exact hp
  rw [this] at hlt
  exact h (by exact_mod_cast of_decide_eq_true hlt)

lemma not_mem_creditors_person {bal : List (String × ℚ)} {m : String} {v : ℚ}
    (hnd : (keys bal).Nodup) (hmem : (m, v) ∈ bal) (h : ¬ eps < v) :
    m ∉ (Server.creditors bal).map Server.Party.person := by
  intro hm
  simp only [Server.creditors, List.map_map, List.mem_map, Function.comp,
    List.mem_filter] at hm
  obtain ⟨p, ⟨hp, hlt⟩, hpm⟩ := hm
  have : p.2 = v := by
    refine value_eq_of_nodup hnd ?_ hmem
    rw [← hpm]
    exact hp
  rw [this] at hlt
  exact h (by exact_mod_cast of_decide_eq_true hlt)

lemma pairStep_frozen {m : String} {v : ℚ} (hv : |v| ≤ eps)
    (st : (String → ℚ) × List Settlement) (m1 m2 : String)
    (h1 : st.1 m = v)
    (h2 : ∀ t ∈ st.2, t.fromMember ≠ m ∧ t.toMember ≠ m) :
    (Analytics.pairStep st m1 m2).1 m = v ∧
    ∀ t ∈ (Analytics.pairStep st m1 m2).2, t.fromMember ≠ m ∧ t.toMember ≠ m := by
  obtain ⟨hvl, hvu⟩ := abs_le.mp hv
  unfold Analytics.pairStep
  by_cases hc : eps < st.1 m1 ∧ st.1 m2 < -eps
  · have hm1 : m1 ≠ m := by
      intro h
      rw [h, h1] at hc
      exact absurd hc.1 (not_lt.mpr hvu)
    have hm2 : m2 ≠ m := by
      intro h
      rw [h, h1] at hc
      exact absurd hc.2 (not_lt.mpr hvl)
    rw [if_pos hc]
    refine ⟨?_, ?_⟩
    · show Function.update (Function.update st.1 m1 _) m2 _ m = v
      rw [Function.update_noteq (fun h => hm2 h.symm),
        Function.update_noteq (fun h => hm1 h.symm)]
      exact h1
    · intro t ht
      rcases List.mem_append.mp ht with h | h
      · exact h2 t h
      · rw [List.mem_singleton] at h
        subst h
        exact ⟨hm2, hm1⟩
  · rw [if_neg hc]
    exact ⟨h1, h2⟩

lemma innerLoop_frozen {m : String} {v : ℚ} (hv : |v| ≤ eps) (m1 : String) :
    ∀ (js : List String) (st : (String → ℚ) × List Settlement),
      st.1 m = v → (∀ t ∈ st.2, t.fromMember ≠ m ∧ t.toMember ≠ m) →
      (Analytics.innerLoop m1 js st).1 m = v ∧
      ∀ t ∈ (Analytics.innerLoop m1 js st).2,
        t.fromMember ≠ m ∧ t.toMember ≠ m := by
  intro js
  induction js with
  | nil => exact fun st h1 h2 => ⟨h1, h2⟩
  | cons x js ih =>
    intro st h1 h2
    rw [Analytics.innerLoop]
    have hstep := pairStep_frozen hv st m1 x h1 h2
    exact ih _ hstep.1 hstep.2

lemma outerLoop_frozen {m : String} {v : ℚ} (hv : |v| ≤ eps) :
    ∀ (ms : List String) (st : (String → ℚ) × List Settlement),
      st.1 m = v → (∀ t ∈ st.2, t.fromMember ≠ m ∧ t.toMember ≠ m) →
      (Analytics.outerLoop ms st).1 m = v ∧
      ∀ t ∈ (Analytics.outerLoop ms st).2,
        t.fromMember ≠ m ∧ t.toMember ≠ m := by
  intro ms
  induction ms with
  | nil => exact fun st h1 h2 => ⟨h1, h2⟩
  | cons m1 ms ih =>
    intro st h1 h2
    rw [Analytics.outerLoop]
    have hstep := innerLoop_frozen hv m1 ms st h1 h2
    exact ih _ hstep.1 hstep.2

/-- C8: a member whose balance lies within the dead-zone `[-0.01, 0.01]`
never appears as `from` or as `to` in any settlement, in either
implementation. -/
theorem C8_thm (bal : List (String × ℚ)) (m : String) (v : ℚ)
    (hnd : (keys bal).Nodup) (hmem : (m, v) ∈ bal) (hv : |v| ≤ eps) :
    ((Server.calculateSettlements bal).all
      (fun t => (t.fromMember != m) && (t.toMember != m))) = true ∧
    ((Analytics.calculateSettlements bal).all
      (fun t => (t.fromMember != m) && (t.toMember != m))) = true := by
  obtain ⟨hvl, hvu⟩ := abs_le.mp hv
  constructor
  · rw [List.all_eq_true]
    intro t ht
    have hp := settleLoop_persons (Server.debtors bal) (Server.creditors bal) t ht
    have hd := not_mem_debtors_person hnd hmem (not_lt.mpr hvl)
    have hc := not_mem_creditors_person hnd hmem (not_lt.mpr hvu)
    simp only [Bool.and_eq_true, bne_iff_ne, ne_eq]
    exact ⟨fun h => hd (h ▸ hp.1), fun h => hc (h ▸ hp.2)⟩
  · rw [List.all_eq_true]
    intro t ht
    have hinit : (fun q => lookupQ bal q, ([] : List Settlement)).1 m = v :=
      lookupQ_entry hnd hmem
    have h := (outerLoop_frozen hv (keys bal) _ hinit (by simp)).2 t ht
    simp only [Bool.and_eq_true, bne_iff_ne, ne_eq]
    exact h

/-- C8 witness: in `[a: 30, b: -30, c: 0.005]` the dead-zone member `c`
appears in no settlement of either implementation. -/
theorem C8_witness :
    ((Server.calculateSettlements [("a", 30), ("b", -30), ("c", 1/200)]).all
      (fun t => (t.fromMember != "c") && (t.toMember != "c"))) = true ∧
    ((Analytics.calculateSettlements [("a", 30), ("b", -30), ("c", 1/200)]).all
      (fun t => (t.fromMember != "c") && (t.toMember != "c"))) = true :=
  C8_thm [("a", 30), ("b", -30), ("c", 1/200)] "c" (1/200)
    (by decide) (by simp) (by rw [abs_of_nonneg (by norm_num)]; norm_num [eps])

/-! ## Claim C10: the settlement planners do not modify their input -/

/-- C10: both `calculateSettlements` implementations leave the balance
object they are given unchanged: the analytics version mutates only its
spread copy (`{...balances}`), the server version only reads the input via
`Object.entries` and mutates its fresh `debtors`/`creditors` arrays.  The
`...Full` functions return the post-call contents of the caller's object
alongside the settlement list; they equal the input, and consequently a
second call on the post-state reproduces the same settlements. -/
theorem C10_thm (bal : List (String × ℚ)) :
    (Server.calculateSettlementsFull bal).2 = bal ∧
    (Analytics.calculateSettlementsFull bal).2 = bal ∧
    (Server.calculateSettlementsFull ((Server.calculateSettlementsFull bal).2)).1
      = (Server.calculateSettlementsFull bal).1 ∧
    (Analytics.calculateSettlementsFull
        ((Analytics.calculateSettlementsFull bal).2)).1
      = (Analytics.calculateSettlementsFull bal).1 :=
  ⟨rfl, rfl, rfl, rfl⟩

/-! ## Claim C3: settlement count bounds -/

lemma settleLoop_length (ds cs : List Server.Party) :
    (Server.settleLoop ds cs).length ≤ ds.length + cs.length := by
  induction ds, cs using Server.settleLoop.induct with
  | case1 cs => simp [Server.settleLoop]
  | case2 d ds => simp [Server.settleLoop]
  | case3 d ds c cs hle ih1 ih2 =>
    rw [Server.settleLoop, if_pos hle]
    by_cases hr : c.amount - d.amount < eps
    · rw [if_pos hr]
      simp only [List.length_cons]
      omega
    · rw [if_neg hr]
      simp only [List.length_cons] at ih2 ⊢
      omega
  | case4 d ds c cs hle ih1 ih2 =>
    rw [Server.settleLoop, if_neg hle]
    by_cases hr : d.amount - c.amount < eps
    · rw [if_pos hr]
      simp only [List.length_cons]
      omega
    · rw [if_neg hr]
      simp only [List.length_cons] at ih2 ⊢
      omega

lemma settleLoop_length_lt (ds cs : List Server.Party) :
    ds ≠ [] → cs ≠ [] →
    (Server.settleLoop ds cs).length + 1 ≤ ds.length + cs.length := by
  induction ds, cs using Server.settleLoop.induct with
  | case1 cs => intro h _; exact absurd rfl h
  | case2 d ds => intro _ h; exact absurd rfl h
  | case3 d ds c cs hle ih1 ih2 =>
    intro _ _
    rw [Server.settleLoop, if_pos hle]
    by_cases hr : c.amount - d.amount < eps
    · rw [if_pos hr]
      have hb := settleLoop_length ds cs
      simp only [List.length_cons]
      omega
    · rw [if_neg hr]
      by_cases hds : ds = []
      · subst hds
        simp [Server.settleLoop]
        try omega
      · have hb := ih2 hds (by simp)
        simp only [List.length_cons] at hb ⊢
        omega
  | case4 d ds c cs hle ih1 ih2 =>
    intro _ _
    rw [Server.settleLoop, if_neg hle]
    by_cases hr : d.amount - c.amount < eps
    · rw [if_pos hr]
      have hb := settleLoop_length ds cs
      simp only [List.length_cons]
      omega
    · rw [if_neg hr]
      by_cases hcs : cs = []
      · subst hcs
        simp [Server.settleLoop]
        try omega
      · have hb := ih2 (by simp) hcs
        simp only [List.length_cons] at hb ⊢
        omega

lemma filter_length_le_of_mono {α : Type} (l : List α) (p q : α → Bool)
    (hmono : ∀ x ∈ l, p x = true → q x = true) :
    (l.filter p).length ≤ (l.filter q).length := by
  induction l with
  | nil => simp
  | cons a l ih =>
    have ih' := ih (fun x hx => hmono x (List.mem_cons_of_mem _ hx))
    by_cases hpa : p a = true
    · rw [List.filter_cons_of_pos hpa,
        List.filter_cons_of_pos (hmono a (List.mem_cons_self _ _) hpa)]
      simpa using ih'
    · rw [List.filter_cons_of_neg (by simpa using hpa)]
      by_cases hqa : q a = true
      · rw [List.filter_cons_of_pos hqa]
        simp only [List.length_cons]
        omega
      · rw [List.filter_cons_of_neg (by simpa using hqa)]
        exact ih'

lemma filter_length_succ_le_of_mono {α : Type} (l : List α) (p q : α → Bool)
    (hmono : ∀ x ∈ l, p x = true → q x = true) (a : α) (ha : a ∈ l)
    (hpa : p a = false) (hqa : q a = true) :
    (l.filter p).length + 1 ≤ (l.filter q).length := by
  induction l with
  | nil => simp at ha
  | cons b l ih =>
    rcases List.mem_cons.mp ha with hb | hb
    · subst hb
      rw [List.filter_cons_of_neg (by simp [hpa]), List.filter_cons_of_pos hqa]
      simp only [List.length_cons]
      have hmono' := filter_length_le_of_mono l p q
        (fun x hx => hmono x (List.mem_cons_of_mem _ hx))
      omega
    · have ih' := ih (fun x hx => hmono x (List.mem_cons_of_mem _ hx)) hb
      by_cases hpb : p b = true
      · rw [List.filter_cons_of_pos hpb,
          List.filter_cons_of_pos (hmono b (List.mem_cons_self _ _) hpb)]
        simp only [List.length_cons]
        omega
      · rw [List.filter_cons_of_neg (by simpa using hpb)]
        by_cases hqb : q b = true
        · rw [List.filter_cons_of_pos hqb]
          simp only [List.length_cons]
          omega
        · rw [List.filter_cons_of_neg (by simpa using hqb)]
          exact ih'

lemma filter_length_succ_le_length {α : Type} (l : List α) (p : α → Bool)
    (a : α) (ha : a ∈ l) (hpa : p a = false) :
    (l.filter p).length + 1 ≤ l.length := by
  induction l with
  | nil => simp at ha
  | cons b l ih =>
    have hlen := List.length_filter_le p l
    rcases List.mem_cons.mp ha with hb | hb
    · subst hb
      rw [List.filter_cons_of_neg (by simp [hpa])]
      simp only [List.length_cons]
      omega
    · by_cases hpb : p b = true
      · rw [List.filter_cons_of_pos hpb]
        simp only [List.length_cons]
        have := ih hb
        omega
      · rw [List.filter_cons_of_neg (by simpa using hpb)]
        simp only [List.length_cons]
        have := ih hb
        omega

lemma filter_length_two_le_length {α : Type} (l : List α) (p : α → Bool)
    (a b : α) (ha : a ∈ l) (hb : b ∈ l) (hab : a ≠ b)
    (hpa : p a = false) (hpb : p b = false) :
    (l.filter p).length + 2 ≤ l.length := by
  induction l with
  | nil => simp at ha
  | cons c l ih =>
    rcases List.mem_cons.mp ha with hc | hc
    · subst hc
      have hbl : b ∈ l := by
        rcases List.mem_cons.mp hb with h | h
        · exact absurd h.symm hab
        · exact h
      rw [List.filter_cons_of_neg (by simp [hpa])]
      simp only [List.length_cons]
      have := filter_length_succ_le_length l p b hbl hpb
      omega
    · rcases List.mem_cons.mp hb with hc2 | hc2
      · subst hc2
        rw [List.filter_cons_of_neg (by simp [hpb])]
        simp only [List.length_cons]
        have := filter_length_succ_le_length l p a hc hpa
        omega
      · have := ih hc hc2
        by_cases hpc : p c = true
        · rw [List.filter_cons_of_pos hpc]
          simp only [List.length_cons]
          omega
        · rw [List.filter_cons_of_neg (by simpa using hpc)]
          simp only [List.length_cons]
          omega

/-- Invariant of the analytics pair loop used for the transfer-count bound:
`f0` is the original copy of the balances and `dc` the list of keys that
start outside the dead-zone.  The copy stays between the original value and
0, the number of settlements emitted so far is at most the number of `dc`
members whose copy has reached exactly 0, and if every `dc` member has
reached 0 then at least one extra slot remains. -/
def PairInv (f0 : String → ℚ) (dc : List String)
    (st : (String → ℚ) × List Settlement) : Prop :=
  (∀ q, min (f0 q) 0 ≤ st.1 q ∧ st.1 q ≤ max (f0 q) 0) ∧
  st.2.length ≤ (dc.filter (fun k => st.1 k = 0)).length ∧
  (dc ≠ [] → (∀ k ∈ dc, st.1 k = 0) → st.2.length + 1 ≤ dc.length)

lemma pairStep_of_cond (st : (String → ℚ) × List Settlement) (m1 m2 : String)
    (hc : eps < st.1 m1 ∧ st.1 m2 < -eps) :
    Analytics.pairStep st m1 m2 =
      (Function.update (Function.update st.1 m1
          (st.1 m1 - min (st.1 m1) (-(st.1 m2)))) m2
          (st.1 m2 + min (st.1 m1) (-(st.1 m2))),
       st.2 ++ [⟨m2, m1, min (st.1 m1) (-(st.1 m2))⟩]) := by
  unfold Analytics.pairStep
  rw [if_pos hc]

lemma pairStep_of_not_cond (st : (String → ℚ) × List Settlement) (m1 m2 : String)
    (hc : ¬ (eps < st.1 m1 ∧ st.1 m2 < -eps)) :
    Analytics.pairStep st m1 m2 = st := by
  unfold Analytics.pairStep
  rw [if_neg hc]

lemma pairStep_inv (f0 : String → ℚ) (dc : List String)
    (hdc : ∀ k, (f0 k < -eps ∨ eps < f0 k) → k ∈ dc)
    (st : (String → ℚ) × List Settlement) (m1 m2 : String)
    (hinv : PairInv f0 dc st) :
    PairInv f0 dc (Analytics.pairStep st m1 m2) := by
  obtain ⟨h1, h2, h3⟩ := hinv
  by_cases hc : eps < st.1 m1 ∧ st.1 m2 < -eps
  case neg =>
    rw [pairStep_of_not_cond st m1 m2 hc]
    exact ⟨h1, h2, h3⟩
  case pos =>
  obtain ⟨hb1, hb2⟩ := hc
  rw [pairStep_of_cond st m1 m2 ⟨hb1, hb2⟩]
  have heps : (0:ℚ) < eps := by norm_num [eps]
  have hne12 : m1 ≠ m2 := by
    intro h
    rw [h] at hb1
    linarith
  have ha1 : min (st.1 m1) (-(st.1 m2)) ≤ st.1 m1 := min_le_left _ _
  have ha2 : min (st.1 m1) (-(st.1 m2)) ≤ -(st.1 m2) := min_le_right _ _
  have hapos : 0 < min (st.1 m1) (-(st.1 m2)) :=
    lt_min (lt_trans heps hb1) (by linarith)
  set a := min (st.1 m1) (-(st.1 m2)) with ha
  set f' := Function.update (Function.update st.1 m1 (st.1 m1 - a)) m2
    (st.1 m2 + a) with hf'
  have hf'm1 : f' m1 = st.1 m1 - a := by
    rw [hf', Function.update_noteq hne12, Function.update_same]
  have hf'm2 : f' m2 = st.1 m2 + a := by
    rw [hf', Function.update_same]
  have hf'other : ∀ q, q ≠ m1 → q ≠ m2 → f' q = st.1 q := by
    intro q hq1 hq2
    rw [hf', Function.update_noteq hq2, Function.update_noteq hq1]
  have hm1f0 : eps < f0 m1 := by
    by_contra hcon
    push_neg at hcon
    have hb := (h1 m1).2
    have hmax : max (f0 m1) 0 ≤ eps := max_le hcon (le_of_lt heps)
    linarith
  have hm2f0 : f0 m2 < -eps := by
    by_contra hcon
    push_neg at hcon
    have hb := (h1 m2).1
    have hmin : -eps ≤ min (f0 m2) 0 := le_min hcon (by linarith)
    linarith
  have hm1dc : m1 ∈ dc := hdc m1 (Or.inr hm1f0)
  have hm2dc : m2 ∈ dc := hdc m2 (Or.inl hm2f0)
  have hm1ne : st.1 m1 ≠ 0 := by
    intro h
    rw [h] at hb1
    linarith
  have hm2ne : st.1 m2 ≠ 0 := by
    intro h
    rw [h] at hb2
    linarith
  have hzero : f' m1 = 0 ∨ f' m2 = 0 := by
    rcases le_total (st.1 m1) (-(st.1 m2)) with hmin | hmin
    · left
      rw [hf'm1, ha, min_eq_left hmin]
      ring
    · right
      rw [hf'm2, ha, min_eq_right hmin]
      ring
  have hmono : ∀ x ∈ dc, decide (st.1 x = 0) = true → decide (f' x = 0) = true := by
    intro x _ hx
    rw [decide_eq_true_eq] at hx
    rw [decide_eq_true_eq]
    have hx1 : x ≠ m1 := fun h => hm1ne (h ▸ hx)
    have hx2 : x ≠ m2 := fun h => hm2ne (h ▸ hx)
    rw [hf'other x hx1 hx2]
    exact hx
  have hpm1 : decide (st.1 m1 = 0) = false := by
    rw [decide_eq_false_iff_not]
    exact hm1ne
  have hpm2 : decide (st.1 m2 = 0) = false := by
    rw [decide_eq_false_iff_not]
    exact hm2ne
  have hcount : (dc.filter (fun k => st.1 k = 0)).length + 1 ≤
      (dc.filter (fun k => f' k = 0)).length := by
    rcases hzero with hz | hz
    · exact filter_length_succ_le_of_mono dc _ _ hmono m1 hm1dc hpm1
        (by rw [decide_eq_true_eq]; exact hz)
    · exact filter_length_succ_le_of_mono dc _ _ hmono m2 hm2dc hpm2
        (by rw [decide_eq_true_eq]; exact hz)
  have htwo : (dc.filter (fun k => st.1 k = 0)).length + 2 ≤ dc.length :=
    filter_length_two_le_length dc _ m1 m2 hm1dc hm2dc hne12 hpm1 hpm2
  refine ⟨?_, ?_, ?_⟩
  · intro q
    show min (f0 q) 0 ≤ f' q ∧ f' q ≤ max (f0 q) 0
    by_cases hq1 : q = m1
    · subst hq1
      constructor
      · rw [hf'm1]
        calc min (f0 q) 0 ≤ 0 := min_le_right _ _
          _ ≤ st.1 q - a := by linarith
      · rw [hf'm1]
        have hb := (h1 q).2
        linarith
    · by_cases hq2 : q = m2
      · subst hq2
        constructor
        · rw [hf'm2]
          have hb := (h1 q).1
          linarith
        · rw [hf'm2]
          calc st.1 q + a ≤ 0 := by linarith
            _ ≤ max (f0 q) 0 := le_max_right _ _
      · rw [hf'other q hq1 hq2]
        exact h1 q
  · show (st.2 ++ [(⟨m2, m1, a⟩ : Settlement)]).length ≤
      (dc.filter (fun k => f' k = 0)).length
    rw [List.length_append]
    simp only [List.length_singleton]
    omega
  · intro _ _
    show (st.2 ++ [(⟨m2, m1, a⟩ : Settlement)]).length + 1 ≤ dc.length
    rw [List.length_append]
    simp only [List.length_singleton]
    omega

lemma innerLoop_inv (f0 : String → ℚ) (dc : List String)
    (hdc : ∀ k, (f0 k < -eps ∨ eps < f0 k) → k ∈ dc) (m1 : String) :
    ∀ (js : List String) (st : (String → ℚ) × List Settlement),
      PairInv f0 dc st → PairInv f0 dc (Analytics.innerLoop m1 js st) := by
  intro js
  induction js with
  | nil => exact fun st h => h
  | cons x js ih =>
    intro st h
    rw [Analytics.innerLoop]
    exact ih _ (pairStep_inv f0 dc hdc st m1 x h)

lemma outerLoop_inv (f0 : String → ℚ) (dc : List String)
    (hdc : ∀ k, (f0 k < -eps ∨ eps < f0 k) → k ∈ dc) :
    ∀ (ms : List String) (st : (String → ℚ) × List Settlement),
      PairInv f0 dc st → PairInv f0 dc (Analytics.outerLoop ms st) := by
  intro ms
  induction ms with
  | nil => exact fun st h => h
  | cons m1 ms ih =>
    intro st h
    rw [Analytics.outerLoop]
    exact ih _ (innerLoop_inv f0 dc hdc m1 ms st h)

lemma filter_keys_length_dc (bal : List (String × ℚ)) (hnd : (keys bal).Nodup) :
    ((keys bal).filter
        (fun k => lookupQ bal k < -eps ∨ eps < lookupQ bal k)).length
      = (bal.filter (fun p => p.2 < -eps ∨ eps < p.2)).length := by
  induction bal with
  | nil => simp [keys]
  | cons p t ih =>
    have hnk : p.1 ∉ keys t := by
      simp only [keys, List.map_cons, List.nodup_cons] at hnd
      exact hnd.1
    have hnd' : (keys t).Nodup := by
      simp only [keys, List.map_cons, List.nodup_cons] at hnd
      exact hnd.2
    have hhead : lookupQ (p :: t) p.1 = p.2 := by simp [lookupQ]
    have hcongr : (keys t).filter
        (fun k => lookupQ (p :: t) k < -eps ∨ eps < lookupQ (p :: t) k)
        = (keys t).filter (fun k => lookupQ t k < -eps ∨ eps < lookupQ t k) := by
      apply List.filter_congr
      intro k hk
      have hne : p.1 ≠ k := fun h => hnk (h ▸ hk)
      simp [lookupQ, hne]
    show ((p.1 :: keys t).filter _).length = _
    by_cases hp : p.2 < -eps ∨ eps < p.2
    · rw [List.filter_cons_of_pos
          (by rw [decide_eq_true_eq, hhead]; exact hp),
        List.filter_cons_of_pos (by rw [decide_eq_true_eq]; exact hp)]
      simp only [List.length_cons]
      rw [hcongr, ih hnd']
    · rw [List.filter_cons_of_neg
          (by rw [Bool.not_eq_true, decide_eq_false_iff_not, hhead]; exact hp),
        List.filter_cons_of_neg
          (by rw [Bool.not_eq_true, decide_eq_false_iff_not]; exact hp)]
      rw [hcongr, ih hnd']

lemma length_filter_or_split (l : List (String × ℚ)) :
    (l.filter (fun p => p.2 < -eps ∨ eps < p.2)).length
      = (l.filter (fun p => p.2 < -eps)).length
        + (l.filter (fun p => eps < p.2)).length := by
  have heps : (0:ℚ) < eps := by norm_num [eps]
  induction l with
  | nil => simp
  | cons p t ih =>
    by_cases h1 : p.2 < -eps
    · have h2 : ¬ eps < p.2 := by linarith
      rw [List.filter_cons_of_pos (by rw [decide_eq_true_eq]; exact Or.inl h1),
        List.filter_cons_of_pos (by rw [decide_eq_true_eq]; exact h1),
        List.filter_cons_of_neg
          (by rw [Bool.not_eq_true, decide_eq_false_iff_not]; exact h2)]
      simp only [List.length_cons]
      omega
    · by_cases h2 : eps < p.2
      · rw [List.filter_cons_of_pos (by rw [decide_eq_true_eq]; exact Or.inr h2),
          List.filter_cons_of_neg
            (by rw [Bool.not_eq_true, decide_eq_false_iff_not]; exact h1),
          List.filter_cons_of_pos (by rw [decide_eq_true_eq]; exact h2)]
        simp only [List.length_cons]
        omega
      · rw [List.filter_cons_of_neg
            (by rw [Bool.not_eq_true, decide_eq_false_iff_not]
                exact fun h => h.elim h1 h2),
          List.filter_cons_of_neg
            (by rw [Bool.not_eq_true, decide_eq_false_iff_not]; exact h1),
          List.filter_cons_of_neg
            (by rw [Bool.not_eq_true, decide_eq_false_iff_not]; exact h2)]
        exact ih

lemma debtors_length (bal : List (String × ℚ)) :
    (Server.debtors bal).length = (bal.filter (fun p => p.2 < -eps)).length := by
  simp [Server.debtors]

lemma creditors_length (bal : List (String × ℚ)) :
    (Server.creditors bal).length = (bal.filter (fun p => eps < p.2)).length := by
  simp [Server.creditors]

/-- C3: both settlement planners are total functions (termination is by
construction of the definitions), and on a balance map with at least one
debtor (balance < -0.01) and one creditor (balance > 0.01) each returns at
most `|debtors| + |creditors| - 1` transfers. -/
theorem C3_thm (bal : List (String × ℚ)) (hnd : (keys bal).Nodup)
    (hd : Server.debtors bal ≠ []) (hc : Server.creditors bal ≠ []) :
    (Server.calculateSettlements bal).length + 1 ≤
      (Server.debtors bal).length + (Server.creditors bal).length ∧
    (Analytics.calculateSettlements bal).length + 1 ≤
      (Server.debtors bal).length + (Server.creditors bal).length := by
  have heps : (0:ℚ) < eps := by norm_num [eps]
  constructor
  · exact settleLoop_length_lt _ _ hd hc
  · set dc := (keys bal).filter
      (fun k => lookupQ bal k < -eps ∨ eps < lookupQ bal k) with hdcdef
    have hdc : ∀ k, ((fun m => lookupQ bal m) k < -eps ∨
        eps < (fun m => lookupQ bal m) k) → k ∈ dc := by
      intro k hk
      have hne : lookupQ bal k ≠ 0 := by
        rcases hk with h | h <;> intro h0 <;> simp only at h <;>
          rw [h0] at h <;> linarith
      have hkmem : k ∈ keys bal := mem_keys_of_lookupQ_ne hne
      rw [hdcdef]
      exact List.mem_filter.mpr ⟨hkmem, by rw [decide_eq_true_eq]; exact hk⟩
    have hinv0 : PairInv (fun m => lookupQ bal m) dc
        (fun m => lookupQ bal m, []) := by
      refine ⟨?_, by simp, ?_⟩
      · intro q
        exact ⟨min_le_left _ _, le_max_left _ _⟩
      · intro hne hall
        obtain ⟨k, hk⟩ := List.exists_mem_of_ne_nil _ hne
        have hcond := (List.mem_filter.mp (hdcdef ▸ hk)).2
        rw [decide_eq_true_eq] at hcond
        have h0 := hall k hk
        simp only at h0
        rcases hcond with h | h <;> rw [h0] at h <;> linarith
    have hfinal := outerLoop_inv (fun m => lookupQ bal m) dc hdc (keys bal)
      (fun m => lookupQ bal m, []) hinv0
    obtain ⟨hI1, hI2, hI3⟩ := hfinal
    have hdcne : dc ≠ [] := by
      obtain ⟨d, hdm⟩ := List.exists_mem_of_ne_nil _ hd
      simp only [Server.debtors, List.mem_map, List.mem_filter] at hdm
      obtain ⟨q, ⟨hq, hqlt⟩, _⟩ := hdm
      rw [decide_eq_true_eq] at hqlt
      have hkmem : q.1 ∈ keys bal := List.mem_map.mpr ⟨q, hq, rfl⟩
      have hval : lookupQ bal q.1 = q.2 := lookupQ_entry hnd (by
        have : (q.1, q.2) = q := rfl
        rw [this]
        exact hq)
      have : q.1 ∈ dc := by
        rw [hdcdef]
        refine List.mem_filter.mpr ⟨hkmem, ?_⟩
        rw [decide_eq_true_eq, hval]
        exact Or.inl hqlt
      exact List.ne_nil_of_mem this
    have hlen : (Analytics.outerLoop (keys bal)
        (fun m => lookupQ bal m, [])).2.length + 1 ≤ dc.length := by
      by_cases hall : ∀ k ∈ dc,
          (Analytics.outerLoop (keys bal) (fun m => lookupQ bal m, [])).1 k = 0
      · exact hI3 hdcne hall
      · push_neg at hall
        obtain ⟨k, hk, hkne⟩ := hall
        have := filter_length_succ_le_length dc
          (fun k => decide ((Analytics.outerLoop (keys bal)
            (fun m => lookupQ bal m, [])).1 k = 0)) k hk
          (by rw [decide_eq_false_iff_not]; exact hkne)
        omega
    have hbridge : dc.length =
        (Server.debtors bal).length + (Server.creditors bal).length := by
      rw [hdcdef, filter_keys_length_dc bal hnd, length_filter_or_split,
        debtors_length, creditors_length]
    have hsettle : Analytics.calculateSettlements bal
        = (Analytics.outerLoop (keys bal) (fun m => lookupQ bal m, [])).2 := rfl
    rw [hsettle]
    omega

/-- C3 witness: a single debtor and creditor produce exactly one transfer in
each implementation, attaining the bound `1 = 1 + 1 - 1`. -/
theorem C3_witness :
    (Server.calculateSettlements [("a", 30), ("b", -30)]).length + 1 ≤
      (Server.debtors [("a", 30), ("b", -30)]).length +
      (Server.creditors [("a", 30), ("b", -30)]).length ∧
    (Analytics.calculateSettlements [("a", 30), ("b", -30)]).length + 1 ≤
      (Server.debtors [("a", 30), ("b", -30)]).length +
      (Server.creditors [("a", 30), ("b", -30)]).length := by
  refine C3_thm [("a", 30), ("b", -30)] (by decide) ?_ ?_
  · show Server.debtors [("a", 30), ("b", -30)] ≠ []
    have : Server.debtors [("a", 30), ("b", -30)] = [⟨"b", 30⟩] := by
      simp [Server.debtors, eps]
      norm_num
    rw [this]
    simp
  · show Server.creditors [("a", 30), ("b", -30)] ≠ []
    have : Server.creditors [("a", 30), ("b", -30)] = [⟨"a", 30⟩] := by
      simp [Server.creditors, eps]
      norm_num
    rw [this]
    simp

/-! ## Claim C1: settlement correctness -/

/-- Sum of the amounts of a party list. -/
def partySum (l : List Server.Party) : ℚ := (l.map Server.Party.amount).sum

lemma isCent_neg {q : ℚ} (h : isCent q) : isCent (-q) := by
  obtain ⟨k, hk⟩ := h
  exact ⟨-k, by rw [hk]; push_cast; ring⟩

lemma isCent_sub {p q : ℚ} (hp : isCent p) (hq : isCent q) : isCent (p - q) := by
  obtain ⟨a, ha⟩ := hp
  obtain ⟨b, hb⟩ := hq
  exact ⟨a - b, by rw [ha, hb]; push_cast; ring⟩

lemma isCent_eq_zero_of_lt_eps {q : ℚ} (hc : isCent q) (h0 : 0 ≤ q)
    (h1 : q < eps) : q = 0 := by
  obtain ⟨k, hk⟩ := hc
  have hk100 : (k:ℚ) = 100 * q := by
    rw [hk]
    ring
  have hk0 : (0:ℚ) ≤ (k:ℚ) := by
    rw [hk100]
    linarith
  have hk1 : (k:ℚ) < 1 := by
    rw [hk100]
    have : q < 1 / 100 := by
      rw [← show eps = 1 / 100 from rfl]
      exact h1
    linarith
  have hk0' : (0:ℤ) ≤ k := by exact_mod_cast hk0
  have hk1' : k < 1 := by exact_mod_cast hk1
  have : k = 0 := by omega
  rw [hk, this]
  norm_num

lemma eps_le_of_isCent_pos {q : ℚ} (hc : isCent q) (h : 0 < q) : eps ≤ q := by
  by_contra hcon
  push_neg at hcon
  have := isCent_eq_zero_of_lt_eps hc (le_of_lt h) hcon
  linarith

lemma outFlow_cons (t : Settlement) (S : List Settlement) (m : String) :
    outFlow (t :: S) m =
      (if t.fromMember = m then t.amount else 0) + outFlow S m := by
  by_cases h : t.fromMember = m <;> simp [outFlow, h]

lemma inFlow_cons (t : Settlement) (S : List Settlement) (m : String) :
    inFlow (t :: S) m =
      (if t.toMember = m then t.amount else 0) + inFlow S m := by
  by_cases h : t.toMember = m <;> simp [inFlow, h]

lemma partyAmt_cons (p : Server.Party) (l : List Server.Party) (m : String) :
    partyAmt (p :: l) m =
      (if p.person = m then p.amount else 0) + partyAmt l m := by
  by_cases h : p.person = m <;> simp [partyAmt, h]

lemma partySum_cons (p : Server.Party) (l : List Server.Party) :
    partySum (p :: l) = p.amount + partySum l := by
  simp [partySum]

lemma partySum_nonneg {l : List Server.Party}
    (h : ∀ p ∈ l, eps ≤ p.amount) : 0 ≤ partySum l := by
  have heps : (0:ℚ) < eps := by norm_num [eps]
  induction l with
  | nil => simp [partySum]
  | cons p t ih =>
    rw [partySum_cons]
    have h1 := h p (List.mem_cons_self _ _)
    have h2 := ih (fun q hq => h q (List.mem_cons_of_mem _ hq))
    linarith

lemma partySum_pos {l : List Server.Party}
    (h : ∀ p ∈ l, eps ≤ p.amount) (hne : l ≠ []) : 0 < partySum l := by
  have heps : (0:ℚ) < eps := by norm_num [eps]
  cases l with
  | nil => exact absurd rfl hne
  | cons p t =>
    rw [partySum_cons]
    have h1 := h p (List.mem_cons_self _ _)
    have h2 := partySum_nonneg (fun q hq => h q (List.mem_cons_of_mem _ hq))
    linarith

lemma eq_nil_of_partySum_zero {l : List Server.Party}
    (h : ∀ p ∈ l, eps ≤ p.amount) (h0 : partySum l = 0) : l = [] := by
  by_contra hne
  have := partySum_pos h hne
  linarith

lemma settleLoop_flows (ds cs : List Server.Party) :
    (∀ p ∈ ds, eps ≤ p.amount ∧ isCent p.amount) →
    (∀ p ∈ cs, eps ≤ p.amount ∧ isCent p.amount) →
    partySum ds = partySum cs →
    ∀ m, outFlow (Server.settleLoop ds cs) m = partyAmt ds m ∧
         inFlow (Server.settleLoop ds cs) m = partyAmt cs m := by
  induction ds, cs using Server.settleLoop.induct with
  | case1 cs =>
    intro _ hc hsum m
    have hcs : cs = [] := by
      refine eq_nil_of_partySum_zero (fun p hp => (hc p hp).1) ?_
      rw [← hsum]
      simp [partySum]
    subst hcs
    simp [Server.settleLoop, outFlow, inFlow, partyAmt]
  | case2 d ds =>
    intro hd _ hsum m
    exfalso
    have hpos : 0 < partySum (d :: ds) :=
      partySum_pos (fun p hp => (hd p hp).1) (by simp)
    rw [hsum] at hpos
    simp [partySum] at hpos
  | case3 d ds c cs hle ih1 ih2 =>
    intro hd hc hsum m
    have hdd := hd d (List.mem_cons_self _ _)
    have hcc := hc c (List.mem_cons_self _ _)
    have hdtl : ∀ p ∈ ds, eps ≤ p.amount ∧ isCent p.amount :=
      fun p hp => hd p (List.mem_cons_of_mem _ hp)
    have hctl : ∀ p ∈ cs, eps ≤ p.amount ∧ isCent p.amount :=
      fun p hp => hc p (List.mem_cons_of_mem _ hp)
    have hsum' : d.amount + partySum ds = c.amount + partySum cs := by
      rw [partySum_cons, partySum_cons] at hsum
      exact hsum
    rw [Server.settleLoop, if_pos hle]
    by_cases hr : c.amount - d.amount < eps
    · have hr0 : c.amount - d.amount = 0 :=
        isCent_eq_zero_of_lt_eps (isCent_sub hcc.2 hdd.2) (by linarith) hr
      have hceq : c.amount = d.amount := by linarith
      rw [if_pos hr]
      have ih := ih1 hdtl hctl (by linarith) m
      constructor
      · rw [outFlow_cons, ih.1, partyAmt_cons]
      · rw [inFlow_cons, ih.2, partyAmt_cons, hceq]
    · rw [if_neg hr]
      have hres : eps ≤ c.amount - d.amount := le_of_not_lt hr
      have ih := ih2 hdtl
        (by
          intro p hp
          rcases List.mem_cons.mp hp with h | h
          · subst h
            exact ⟨hres, isCent_sub hcc.2 hdd.2⟩
          · exact hctl p h)
        (by
          rw [partySum_cons]
          show partySum ds = c.amount - d.amount + partySum cs
          linarith) m
      constructor
      · rw [outFlow_cons, ih.1, partyAmt_cons]
      · rw [inFlow_cons, ih.2, partyAmt_cons, partyAmt_cons]
        show (if c.person = m then d.amount else 0) +
            ((if c.person = m then c.amount - d.amount else 0) + partyAmt cs m)
          = (if c.person = m then c.amount else 0) + partyAmt cs m
        by_cases hcm : c.person = m <;> simp [hcm] <;> ring
  | case4 d ds c cs hle ih1 ih2 =>
    intro hd hc hsum m
    have hdd := hd d (List.mem_cons_self _ _)
    have hcc := hc c (List.mem_cons_self _ _)
    have hdtl : ∀ p ∈ ds, eps ≤ p.amount ∧ isCent p.amount :=
      fun p hp => hd p (List.mem_cons_of_mem _ hp)
    have hctl : ∀ p ∈ cs, eps ≤ p.amount ∧ isCent p.amount :=
      fun p hp => hc p (List.mem_cons_of_mem _ hp)
    have hsum' : d.amount + partySum ds = c.amount + partySum cs := by
      rw [partySum_cons, partySum_cons] at hsum
      exact hsum
    have hgt : c.amount < d.amount := lt_of_not_le hle
    rw [Server.settleLoop, if_neg hle]
    by_cases hr : d.amount - c.amount < eps
    · exfalso
      have hr0 : d.amount - c.amount = 0 :=
        isCent_eq_zero_of_lt_eps (isCent_sub hdd.2 hcc.2) (by linarith) hr
      linarith
    · rw [if_neg hr]
      have hres : eps ≤ d.amount - c.amount := le_of_not_lt hr
      have ih := ih2
        (by
          intro p hp
          rcases List.mem_cons.mp hp with h | h
          · subst h
            exact ⟨hres, isCent_sub hdd.2 hcc.2⟩
          · exact hdtl p h)
        hctl
        (by
          rw [partySum_cons]
          show d.amount - c.amount + partySum ds = partySum cs
          linarith) m
      constructor
      · rw [outFlow_cons, ih.1, partyAmt_cons, partyAmt_cons]
        show (if d.person = m then c.amount else 0) +
            ((if d.person = m then d.amount - c.amount else 0) + partyAmt ds m)
          = (if d.person = m then d.amount else 0) + partyAmt ds m
        by_cases hdm : d.person = m <;> simp [hdm] <;> ring
      · rw [inFlow_cons, ih.2, partyAmt_cons]

lemma keys_payStep (bal : List (String × ℚ)) (t : Settlement) :
    keys (payStep bal t) = keys bal := by
  unfold payStep
  rw [keys_subIfPresent, keys_addIfPresent]

lemma lookupQ_payStep (bal : List (String × ℚ)) (t : Settlement) (m : String) :
    lookupQ (payStep bal t) m = lookupQ bal m
      + (if m = t.fromMember ∧ m ∈ keys bal then t.amount else 0)
      - (if m = t.toMember ∧ m ∈ keys bal then t.amount else 0) := by
  unfold payStep
  rw [lookupQ_subIfPresent, lookupQ_addIfPresent, keys_addIfPresent]

lemma lookupQ_applyPayments (S : List Settlement) (bal : List (String × ℚ))
    (m : String) (hm : m ∈ keys bal) :
    lookupQ (applyPayments bal S) m =
      lookupQ bal m + outFlow S m - inFlow S m := by
  induction S generalizing bal with
  | nil => simp [applyPayments, outFlow, inFlow]
  | cons t S ih =>
    have hstep : applyPayments bal (t :: S) = applyPayments (payStep bal t) S := rfl
    rw [hstep, ih _ (by rw [keys_payStep]; exact hm), lookupQ_payStep,
      outFlow_cons, inFlow_cons]
    by_cases h1 : m = t.fromMember
    · by_cases h2 : m = t.toMember
      · rw [if_pos ⟨h1, hm⟩, if_pos ⟨h2, hm⟩, if_pos h1.symm, if_pos h2.symm]
        ring
      · rw [if_pos ⟨h1, hm⟩, if_neg (fun h => h2 h.1), if_pos h1.symm,
          if_neg (fun h => h2 h.symm)]
        ring
    · by_cases h2 : m = t.toMember
      · rw [if_neg (fun h => h1 h.1), if_pos ⟨h2, hm⟩,
          if_neg (fun h => h1 h.symm), if_pos h2.symm]
        ring
      · rw [if_neg (fun h => h1 h.1), if_neg (fun h => h2 h.1),
          if_neg (fun h => h1 h.symm), if_neg (fun h => h2 h.symm)]
        ring

lemma partyAmt_zero_of_not_mem (l : List Server.Party) (m : String)
    (h : m ∉ l.map Server.Party.person) : partyAmt l m = 0 := by
  induction l with
  | nil => simp [partyAmt]
  | cons p t ih =>
    simp only [List.map_cons, List.mem_cons, not_or] at h
    rw [partyAmt_cons, if_neg (fun hh => h.1 hh.symm), ih h.2]
    ring

lemma debtors_person_sub (bal : List (String × ℚ)) :
    ∀ q ∈ (Server.debtors bal).map Server.Party.person, q ∈ keys bal := by
  intro q hq
  simp only [Server.debtors, List.map_map, List.mem_map, Function.comp,
    List.mem_filter] at hq
  obtain ⟨p, ⟨hp, _⟩, hpq⟩ := hq
  exact hpq ▸ List.mem_map.mpr ⟨p, hp, rfl⟩

lemma creditors_person_sub (bal : List (String × ℚ)) :
    ∀ q ∈ (Server.creditors bal).map Server.Party.person, q ∈ keys bal := by
  intro q hq
  simp only [Server.creditors, List.map_map, List.mem_map, Function.comp,
    List.mem_filter] at hq
  obtain ⟨p, ⟨hp, _⟩, hpq⟩ := hq
  exact hpq ▸ List.mem_map.mpr ⟨p, hp, rfl⟩

lemma debtors_cons (p : String × ℚ) (t : List (String × ℚ)) :
    Server.debtors (p :: t) =
      if p.2 < -eps then (⟨p.1, -p.2⟩ : Server.Party) :: Server.debtors t
      else Server.debtors t := by
  unfold Server.debtors
  by_cases h : p.2 < -eps
  · rw [List.filter_cons_of_pos (by rw [decide_eq_true_eq]; exact h),
      List.map_cons, if_pos h]
  · rw [List.filter_cons_of_neg
      (by rw [Bool.not_eq_true, decide_eq_false_iff_not]; exact h), if_neg h]

lemma creditors_cons (p : String × ℚ) (t : List (String × ℚ)) :
    Server.creditors (p :: t) =
      if eps < p.2 then (⟨p.1, p.2⟩ : Server.Party) :: Server.creditors t
      else Server.creditors t := by
  unfold Server.creditors
  by_cases h : eps < p.2
  · rw [List.filter_cons_of_pos (by rw [decide_eq_true_eq]; exact h),
      List.map_cons, if_pos h]
  · rw [List.filter_cons_of_neg
      (by rw [Bool.not_eq_true, decide_eq_false_iff_not]; exact h), if_neg h]

lemma partyAmt_debtors (bal : List (String × ℚ)) (m : String) (v : ℚ)
    (hnd : (keys bal).Nodup) (hmem : (m, v) ∈ bal) :
    partyAmt (Server.debtors bal) m = if v < -eps then -v else 0 := by
  induction bal with
  | nil => simp at hmem
  | cons p t ih =>
    have hnk : p.1 ∉ keys t := by
      simp only [keys, List.map_cons, List.nodup_cons] at hnd
      exact hnd.1
    have hnd' : (keys t).Nodup := by
      simp only [keys, List.map_cons, List.nodup_cons] at hnd
      exact hnd.2
    rcases List.mem_cons.mp hmem with he | he
    · have hpm : p = (m, v) := he.symm
      subst hpm
      have hz : partyAmt (Server.debtors t) m = 0 :=
        partyAmt_zero_of_not_mem _ _
          (fun hmm => hnk (debtors_person_sub t _ hmm))
      rw [debtors_cons]
      by_cases hv : (m, v).2 < -eps
      · rw [if_pos hv, partyAmt_cons, hz]
        simp only at hv
        rw [if_pos hv]
        simp
      · rw [if_neg hv, hz]
        simp only at hv
        rw [if_neg hv]
    · have hmkt : m ∈ keys t := List.mem_map.mpr ⟨(m, v), he, rfl⟩
      have hne : p.1 ≠ m := fun h => hnk (h ▸ hmkt)
      rw [debtors_cons]
      by_cases hp : p.2 < -eps
      · rw [if_pos hp, partyAmt_cons, if_neg hne, ih hnd' he]
        ring
      · rw [if_neg hp]
        exact ih hnd' he

lemma partyAmt_creditors (bal : List (String × ℚ)) (m : String) (v : ℚ)
    (hnd : (keys bal).Nodup) (hmem : (m, v) ∈ bal) :
    partyAmt (Server.creditors bal) m = if eps < v then v else 0 := by
  induction bal with
  | nil => simp at hmem
  | cons p t ih =>
    have hnk : p.1 ∉ keys t := by
      simp only [keys, List.map_cons, List.nodup_cons] at hnd
      exact hnd.1
    have hnd' : (keys t).Nodup := by
      simp only [keys, List.map_cons, List.nodup_cons] at hnd
      exact hnd.2
    rcases List.mem_cons.mp hmem with he | he
    · have hpm : p = (m, v) := he.symm
      subst hpm
      have hz : partyAmt (Server.creditors t) m = 0 :=
        partyAmt_zero_of_not_mem _ _
          (fun hmm => hnk (creditors_person_sub t _ hmm))
      rw [creditors_cons]
      by_cases hv : eps < (m, v).2
      · rw [if_pos hv, partyAmt_cons, hz]
        simp only at hv
        rw [if_pos hv]
        simp
      · rw [if_neg hv, hz]
        simp only at hv
        rw [if_neg hv]
    · have hmkt : m ∈ keys t := List.mem_map.mpr ⟨(m, v), he, rfl⟩
      have hne : p.1 ≠ m := fun h => hnk (h ▸ hmkt)
      rw [creditors_cons]
      by_cases hp : eps < p.2
      · rw [if_pos hp, partyAmt_cons, if_neg hne, ih hnd' he]
        ring
      · rw [if_neg hp]
        exact ih hnd' he

lemma creditors_sub_debtors (bal : List (String × ℚ)) :
    (∀ p ∈ bal, p.2 = 0 ∨ eps < |p.2|) →
    partySum (Server.creditors bal) - partySum (Server.debtors bal)
      = sumValues bal := by
  have heps : (0:ℚ) < eps := by norm_num [eps]
  induction bal with
  | nil =>
    intro _
    simp [partySum, Server.creditors, Server.debtors, sumValues]
  | cons p t ih =>
    intro hdz
    have hp := hdz p (List.mem_cons_self _ _)
    have ih' := ih (fun q hq => hdz q (List.mem_cons_of_mem _ hq))
    rw [debtors_cons, creditors_cons, sumValues_cons]
    rcases hp with h0 | habs
    · have h1 : ¬ p.2 < -eps := by rw [h0]; linarith
      have h2 : ¬ eps < p.2 := by rw [h0]; linarith
      rw [if_neg h1, if_neg h2, h0]
      linarith
    · rcases lt_abs.mp habs with h | h
      · have h1 : ¬ p.2 < -eps := by linarith
        rw [if_neg h1, if_pos h, partySum_cons]
        show p.2 + partySum (Server.creditors t) -
          partySum (Server.debtors t) = p.2 + sumValues t
        linarith
      · have hlt : p.2 < -eps := by linarith
        have h2 : ¬ eps < p.2 := by linarith
        rw [if_pos hlt, if_neg h2, partySum_cons]
        show partySum (Server.creditors t) -
          (-p.2 + partySum (Server.debtors t)) = p.2 + sumValues t
        linarith

/-- C1 (amended): if the balance values sum to 0, every value is a whole
number of cents, and every non-zero value lies strictly outside the
dead-zone, then applying every settlement emitted by the server's
`calculateSettlements`, in order, *as a payment* (adding the amount to the
`from` member and subtracting it from the `to` member) leaves every
member's balance within 0.01 of zero (in fact at exactly 0). -/
theorem C1_amended_thm (bal : List (String × ℚ))
    (hnd : (keys bal).Nodup)
    (hsum : sumValues bal = 0)
    (hcent : ∀ p ∈ bal, isCent p.2)
    (hdz : ∀ p ∈ bal, p.2 = 0 ∨ eps < |p.2|) :
    ∀ m ∈ keys bal,
      |lookupQ (applyPayments bal (Server.calculateSettlements bal)) m| ≤ eps := by
  intro m hm
  have heps : (0:ℚ) < eps := by norm_num [eps]
  have hmem := entry_mem_of_lookupQ hm
  have hd : ∀ p ∈ Server.debtors bal, eps ≤ p.amount ∧ isCent p.amount := by
    intro p hp
    simp only [Server.debtors, List.mem_map, List.mem_filter] at hp
    obtain ⟨q, ⟨hq, hqlt⟩, hqp⟩ := hp
    rw [decide_eq_true_eq] at hqlt
    subst hqp
    exact ⟨by show eps ≤ -q.2; linarith, isCent_neg (hcent q hq)⟩
  have hc : ∀ p ∈ Server.creditors bal, eps ≤ p.amount ∧ isCent p.amount := by
    intro p hp
    simp only [Server.creditors, List.mem_map, List.mem_filter] at hp
    obtain ⟨q, ⟨hq, hqlt⟩, hqp⟩ := hp
    rw [decide_eq_true_eq] at hqlt
    subst hqp
    exact ⟨by show eps ≤ q.2; linarith, hcent q hq⟩
  have hps : partySum (Server.debtors bal) = partySum (Server.creditors bal) := by
    have hsub := creditors_sub_debtors bal hdz
    rw [hsum] at hsub
    linarith
  have hflows := settleLoop_flows (Server.debtors bal) (Server.creditors bal)
    hd hc hps m
  have hacc := lookupQ_applyPayments (Server.calculateSettlements bal) bal m hm
  have hda := partyAmt_debtors bal m (lookupQ bal m) hnd hmem
  have hca := partyAmt_creditors bal m (lookupQ bal m) hnd hmem
  have hout : outFlow (Server.calculateSettlements bal) m
      = partyAmt (Server.debtors bal) m := hflows.1
  have hin : inFlow (Server.calculateSettlements bal) m
      = partyAmt (Server.creditors bal) m := hflows.2
  rw [hacc, hout, hin, hda, hca]
  rcases hdz (m, lookupQ bal m) hmem with h0 | habs
  · simp only at h0
    rw [h0]
    have h1 : ¬ (0:ℚ) < -eps := by linarith
    have h2 : ¬ eps < (0:ℚ) := by linarith
    rw [if_neg (by simpa using h1), if_neg h2]
    simp
    linarith
  · simp only at habs
    rcases lt_abs.mp habs with h | h
    · have h1 : ¬ lookupQ bal m < -eps := by linarith
      rw [if_neg h1, if_pos h]
      simp
      linarith
    · have hlt : lookupQ bal m < -eps := by linarith
      have h2 : ¬ eps < lookupQ bal m := by linarith
      rw [if_pos hlt, if_neg h2]
      simp
      linarith

/-- C1 counterexample, in three parts.  (i) On the zero-sum, cent-valued map
`[a: 30, b: -30]` the claim's literal application direction (subtract from
`from`, add to `to`) doubles the imbalance instead of clearing it.  (ii)
With the payment direction instead, the non-cent zero-sum map
`[a: -1, b: 0.98, c: 0.01, d: 0.01]` leaves `a` at `-0.02`, outside the
0.01 band, because two dead-zone members absorb residue the greedy loop
never matches.  (iii) With the payment direction and a cent-valued map,
the analytics pairwise implementation still fails: on
`[a: -30, b: 60, c: -30]` the pair `(a, b)` is scanned while `a` comes
first, so `a`'s debt is never settled.  Together these force the three
amendments: flip the application direction, restrict to cent-quantized
maps with no residue inside the dead-zone, and scope the statement to the
server implementation. -/
theorem C1_counterexample :
    (sumValues [("a", (30:ℚ)), ("b", -30)] = 0 ∧
      applyLiteral [("a", (30:ℚ)), ("b", -30)]
        (Server.calculateSettlements [("a", (30:ℚ)), ("b", -30)])
        = [("a", 60), ("b", -60)] ∧
      ¬ (|(60:ℚ)| ≤ eps)) ∧
    (sumValues [("a", (-1:ℚ)), ("b", 49/50), ("c", 1/100), ("d", 1/100)] = 0 ∧
      lookupQ (applyPayments
        [("a", (-1:ℚ)), ("b", 49/50), ("c", 1/100), ("d", 1/100)]
        (Server.calculateSettlements
          [("a", (-1:ℚ)), ("b", 49/50), ("c", 1/100), ("d", 1/100)])) "a"
        = -(1/50) ∧
      ¬ (|(-(1/50) : ℚ)| ≤ eps)) ∧
    (sumValues [("a", (-30:ℚ)), ("b", 60), ("c", -30)] = 0 ∧
      lookupQ (applyPayments [("a", (-30:ℚ)), ("b", 60), ("c", -30)]
        (Analytics.calculateSettlements [("a", (-30:ℚ)), ("b", 60), ("c", -30)]))
        "a" = -30 ∧
      ¬ (|(-30:ℚ)| ≤ eps)) := by
  refine ⟨⟨?_, ?_, ?_⟩, ⟨?_, ?_, ?_⟩, ⟨?_, ?_, ?_⟩⟩
  · simp [sumValues]
  · repeat first
      | (simp [Server.calculateSettlements, Server.debtors, Server.creditors,
          Server.settleLoop, eps, min_def, applyLiteral, literalStep,
          Analytics.subIfPresent, Analytics.addIfPresent])
      | norm_num
  · rw [abs_of_nonneg (by norm_num)]
    norm_num [eps]
  · simp [sumValues]
    norm_num
  · repeat first
      | (simp [Server.calculateSettlements, Server.debtors, Server.creditors,
          Server.settleLoop, eps, min_def, applyPayments, payStep,
          Analytics.subIfPresent, Analytics.addIfPresent, lookupQ])
      | norm_num
  · rw [abs_of_nonpos (by norm_num)]
    norm_num [eps]
  · simp [sumValues]
    norm_num
  · repeat first
      | (simp [Analytics.calculateSettlements, Analytics.outerLoop,
          Analytics.innerLoop, Analytics.pairStep, keys, lookupQ, eps,
          Function.update, min_def, applyPayments, payStep,
          Analytics.subIfPresent, Analytics.addIfPresent])
      | norm_num
  · rw [abs_of_nonpos (by norm_num)]
    norm_num [eps]

/-- C1 witness: the amended theorem applied to `[a: 30, b: -30]`. -/
theorem C1_witness :
    |lookupQ (applyPayments [("a", (30:ℚ)), ("b", -30)]
      (Server.calculateSettlements [("a", (30:ℚ)), ("b", -30)])) "a"| ≤ eps := by
  refine C1_amended_thm [("a", (30:ℚ)), ("b", -30)] (by decide) ?_ ?_ ?_ "a"
    (by simp [keys])
  · simp [sumValues]
  · intro p hp
    rcases List.mem_cons.mp hp with h | h
    · subst h
      exact ⟨3000, by norm_num⟩
    · rw [List.mem_singleton] at h
      subst h
      exact ⟨-3000, by norm_num⟩
  · intro p hp
    rcases List.mem_cons.mp hp with h | h
    · subst h
      right
      rw [abs_of_nonneg (by norm_num)]
      norm_num [eps]
    · rw [List.mem_singleton] at h
      subst h
      right
      rw [abs_of_nonpos (by norm_num)]
      norm_num [eps]
